import Mathlib

/-!
Shallow embedding of the NyanCAD/Mosaic netlisting engine
(src/python/nyancad/nyancad/netlist.py and the hierarchy-resolution BFS in
src/python/nyancad/nyancad/api.py) in Lean 4, together with proofs about the
embedded definitions.

Conventions of the embedding:
* Python dicts become insertion-ordered association lists; `setdefault`,
  `pop`, `popitem` (which pops the last inserted entry on Python 3.7+) and
  key-overwrite assignment are modelled by the dict helpers below, all of
  which preserve insertion order exactly like CPython.
* Python floats are modelled by rationals; the grid arithmetic performed by
  `rotate` only ever produces dyadic rationals, on which float arithmetic is
  exact, and Python's `round` (banker's rounding, half to even) is modelled
  by `pyround`.
* Raising an exception is modelled by `Except`: `ValueError`,
  `AssertionError` and `KeyError` become constructors of `NetErr`.
* The two unbounded `while` loops of `netlist` are modelled by fuel-indexed
  recursion; `netlist` itself passes fuel equal to the exact loop measure
  from the termination argument (total entity count plus queue length for
  the inner flood fill, index size for the outer loop), so the fuel branch
  is unreachable on every input on which the Python loop terminates.
* `doc.get('name')`-style access is modelled by an `Option String` field;
  a JSON `null` value and an absent key are collapsed into `none`.
-/

/-!
Rational arithmetic written via `Rat.divInt` so that it reduces inside the
kernel (the `Field ℚ` operations do not); the `_eq` lemmas certify that each
operation agrees with the standard one, so the embedding computes the exact
values of the Python float expressions (which are all dyadic here).
-/

def qadd (a b : ℚ) : ℚ :=
  Rat.divInt (a.num * (b.den : ℤ) + b.num * (a.den : ℤ)) ((a.den : ℤ) * (b.den : ℤ))

def qsub (a b : ℚ) : ℚ :=
  Rat.divInt (a.num * (b.den : ℤ) - b.num * (a.den : ℤ)) ((a.den : ℤ) * (b.den : ℤ))

def qmul (a b : ℚ) : ℚ :=
  Rat.divInt (a.num * b.num) ((a.den : ℤ) * (b.den : ℤ))

def qdiv (a b : ℚ) : ℚ :=
  Rat.divInt (a.num * (b.den : ℤ)) ((a.den : ℤ) * b.num)

def qhalf : ℚ := Rat.divInt 1 2

/-- Floor of a rational, matching Python's `math.floor` on exact values. -/
def pyfloor (q : ℚ) : ℤ := q.num.ediv (q.den : ℤ)

/-- Python's built-in `round`: nearest integer, ties to even. -/
def pyround (q : ℚ) : ℤ :=
  let f := pyfloor q
  let r := qsub q (f : ℚ)
  if r < qhalf then f
  else if qhalf < r then f + 1
  else if f % 2 = 0 then f else f + 1

/-- A 6-element affine transform `[a,b,c,d,e,f]` as stored on a document. -/
structure Transform where
  a : ℚ
  b : ℚ
  c : ℚ
  d : ℚ
  e : ℚ
  f : ℚ
deriving DecidableEq, Repr

/-- One schematic document (CouchDB row), restricted to the fields the
netlisting engine reads.  `name` and `model` model `doc.get(...)` access. -/
structure Doc where
  id : String := ""
  type : String
  x : Int := 0
  y : Int := 0
  rx : Int := 0
  ry : Int := 0
  transform : Option Transform := none
  name : Option String := none
  model : Option String := none
deriving DecidableEq, Repr

/-- The `ports` field of a model: edge name to ordered port-name list,
with `.get(edge, [])` semantics. -/
structure PortsSpec where
  top : List String := []
  bottom : List String := []
  left : List String := []
  right : List String := []
deriving DecidableEq, Repr

/-- One entry of a model's `templates[lang]` list. -/
structure Template where
  name : String := ""
  code : String := ""
  useX : Bool := false
deriving DecidableEq, Repr

/-- A model-library entry.  `templates = none` models an absent `templates`
key; `some []` models a present-but-empty mapping (both are falsy in the
Python sources). -/
structure Model where
  name : String := ""
  ports : PortsSpec := {}
  templates : Option (List (String × List Template)) := none
deriving DecidableEq, Repr

/-- Exceptions raised by the Python code. -/
inductive NetErr where
  | valueError (msg : String)
  | assertError (msg : String)
  | keyError (key : String)
  | fuel
deriving DecidableEq, Repr

abbrev Models := List (String × Model)

deriving instance DecidableEq for Except

/-! ### Python-dict helpers (insertion-ordered association lists) -/

/-- First-match lookup, like `d[k]` / `d.get(k)`. -/
def dlookup {α β : Type} [DecidableEq α] (l : List (α × β)) (k : α) : Option β :=
  match l with
  | [] => none
  | (k', v) :: t => if k' = k then some v else dlookup t k

/-- `d[k] = v` on a dict: overwrite in place if the key exists (keeping its
position, like CPython), else append at the end. -/
def insertD {α β : Type} [DecidableEq α] (l : List (α × β)) (k : α) (v : β) :
    List (α × β) :=
  match l with
  | [] => [(k, v)]
  | (k', v') :: t => if k' = k then (k', v) :: t else (k', v') :: insertD t k v

/-- `d.setdefault(k, []).append(x)`: append `x` to the bucket at `k`,
creating the bucket (at the end, in insertion order) if missing. -/
def bucketAdd {α β : Type} [DecidableEq α] (l : List (α × List β)) (k : α) (x : β) :
    List (α × List β) :=
  match l with
  | [] => [(k, [x])]
  | (k', v) :: t => if k' = k then (k', v ++ [x]) :: t else (k', v) :: bucketAdd t k x

/-- `d.pop(k)`: remove the (first) entry with key `k`, returning its value
and the remaining dict; `none` if the key is absent. -/
def dpop {α β : Type} [DecidableEq α] (l : List (α × β)) (k : α) :
    Option (β × List (α × β)) :=
  match l with
  | [] => none
  | (k', v) :: t =>
    if k' = k then some (v, t)
    else match dpop t k with
      | some (v', t') => some (v', (k', v) :: t')
      | none => none

/-- `d.popitem()`: remove and return the last-inserted entry. -/
def dpopitem {α β : Type} (l : List (α × β)) : Option ((α × β) × List (α × β)) :=
  match l with
  | [] => none
  | [e] => some (e, [])
  | e :: t =>
    match dpopitem t with
    | some (last, t') => some (last, e :: t')
    | none => none

/-- Total number of bucket entries in a bucketed index. -/
def entities {α β : Type} (l : List (α × List β)) : ℕ :=
  (l.map (fun e => e.2.length)).sum

/-! ### Geometry resolver (netlist.py lines 47-180) -/

/-- Python's `s.startswith(p)`: a character-sequence prefix test. -/
def pystartswith (s p : String) : Bool := p.data.isPrefixOf s.data

/-- Python's `s[7:]`: drop the first seven characters. -/
def pyslice7 (s : String) : String := String.mk (s.data.drop 7)

/-- `model_key`: prefix a bare model id with `models:`; asserts the input is
not already prefixed. -/
def checkedModelKey (bareId : Option String) : Except NetErr (Option String) :=
  match bareId with
  | none => .ok none
  | some s =>
    if pystartswith s "models:" then
      .error (.assertError ("model_key expects bare ID, got prefixed: " ++ s))
    else
      .ok (some ("models:" ++ s))

/-- `bare_id`: strip the `models:` prefix; asserts the input is prefixed. -/
def checkedBareId (key : String) : Except NetErr String :=
  if pystartswith key "models:" then .ok (pyslice7 key)
  else .error (.assertError ("bare_id expects prefixed model key, got bare ID: " ++ key))

/-- Python's binary `max`, written out so it reduces in the kernel. -/
def pymax (a b : Int) : Int := if a < b then b else a

/-- Python's binary `max` on naturals, written out so it reduces in the kernel. -/
def pymaxN (a b : ℕ) : ℕ := if a < b then b else a

/-- `shape_ports`: yield `(x, y, c)` for every non-space character of the
shape rows. -/
def shape_ports (rows : List String) : List (Int × Int × String) :=
  (rows.enum.map (fun yr =>
    (yr.2.data.enum.filterMap (fun xc =>
      if xc.2 = ' ' then none
      else some ((xc.1 : Int), (yr.1 : Int), String.singleton xc.2))))).flatten

def mosfet_shape : List (Int × Int × String) :=
  shape_ports [" D ", "GB ", " S "]

def bjt_shape : List (Int × Int × String) :=
  shape_ports [" C ", "B  ", " E "]

def twoport_shape : List (Int × Int × String) :=
  shape_ports [" P ", "   ", " N "]

abbrev Coord := Int × Int

/-- `rotate`: place a local shape at device origin `(devx, devy)` under the
affine transform, rounding to the grid.  Python's `max()` raises on an empty
shape, modelled by the error case. -/
def rotate (shape : List (Int × Int × String)) (t : Transform) (devx devy : Int) :
    Except NetErr (List (Coord × Option String)) :=
  match shape with
  | [] => .error (.valueError "max() arg is an empty sequence")
  | s0 :: srest =>
    let width : Int := (srest.foldl (fun m p => pymax m (pymax p.1 p.2.1)) (pymax s0.1 s0.2.1)) + 1
    let mid : ℚ := qsub (qdiv (width : ℚ) 2) qhalf
    .ok (shape.foldl (fun res p =>
      let lx : ℚ := qsub (p.1 : ℚ) mid
      let ly : ℚ := qsub (p.2.1 : ℚ) mid
      let nx : ℚ := qadd (qadd (qmul t.a lx) (qmul t.c ly)) t.e
      let ny : ℚ := qadd (qadd (qmul t.b lx) (qmul t.d ly)) t.f
      insertD res (pyround (qadd (qadd (devx : ℚ) nx) mid), pyround (qadd (qadd (devy : ℚ) ny) mid))
        (some p.2.2)) [])

/-- `port_perimeter`: bounding box derived from the edge port lists. -/
def port_perimeter (ports : PortsSpec) : Int × Int :=
  (1 + (pymaxN ports.left.length ports.right.length : ℕ),
   1 + (pymaxN ports.top.length ports.bottom.length : ℕ))

/-- `port_locations`: perimeter layout of a model's ports. -/
def port_locations (ports : PortsSpec) : List (Int × Int × String) :=
  let wh := port_perimeter ports
  let top_locs := ports.top.enum.map (fun p => ((p.1 : Int) + 1, (0 : Int), p.2))
  let bottom_locs := ports.bottom.enum.map (fun p => ((p.1 : Int) + 1, wh.2 + 1, p.2))
  let left_locs := ports.left.enum.map (fun p => ((0 : Int), (p.1 : Int) + 1, p.2))
  let right_locs := ports.right.enum.map (fun p => (wh.1 + 1, (p.1 : Int) + 1, p.2))
  top_locs ++ bottom_locs ++ left_locs ++ right_locs

def identityTransform : Transform := ⟨1, 0, 0, 1, 0, 0⟩

def rot180Transform : Transform := ⟨-1, 0, 0, -1, 0, 0⟩

/-- `getports`: absolute port coordinates of one document (netlist.py
lines 139-165). -/
def getports (doc : Doc) (models : Models) : Except NetErr (List (Coord × Option String)) :=
  let tr := doc.transform.getD identityTransform
  if doc.type = "wire" then
    .ok (insertD (insertD [] (doc.x, doc.y) none) (doc.x + doc.rx, doc.y + doc.ry) none)
  else if doc.type = "text" then
    .ok []
  else if doc.type = "port" then
    .ok [((doc.x, doc.y), doc.name)]
  else if doc.type = "nmos" ∨ doc.type = "pmos" then
    rotate mosfet_shape tr doc.x doc.y
  else if doc.type = "npn" ∨ doc.type = "pnp" then
    rotate bjt_shape tr doc.x doc.y
  else if doc.type = "resistor" ∨ doc.type = "capacitor" ∨ doc.type = "inductor" ∨
          doc.type = "vsource" ∨ doc.type = "isource" ∨ doc.type = "diode" then
    rotate twoport_shape tr doc.x doc.y
  else
    match checkedModelKey doc.model with
    | .error e => .error e
    | .ok none => .ok []
    | .ok (some key) =>
      match dlookup models key with
      | some m => rotate (port_locations m.ports) tr doc.x doc.y
      | none => .ok []

/-! ### Net extraction engine (netlist.py lines 168-255) -/

abbrev DI := List (Coord × List (Option String × Doc))
abbrev WI := List (Coord × List Doc)

/-- The synthetic zero-length wire stub inserted at every device terminal:
Python's dict literal has no `_id`, `name` or `model` keys. -/
def stub (loc : Coord) : Doc :=
  { id := "", type := "wire", x := loc.1, y := loc.2, rx := 0, ry := 0 }

/-- `port_index`: build the device and wire spatial indices (netlist.py
lines 168-180), iterating documents and each document's ports in insertion
order. -/
def port_index (docs : List (String × Doc)) (models : Models) (di : DI) (wi : WI) :
    Except NetErr (DI × WI) :=
  match docs with
  | [] => .ok (di, wi)
  | (_, d) :: rest =>
    match getports d models with
    | .error e => .error e
    | .ok ports =>
      let s := ports.foldl (fun (s : DI × WI) lp =>
        if d.type = "wire" ∨ d.type = "port" then
          (s.1, bucketAdd s.2 lp.1 d)
        else
          (bucketAdd s.1 lp.1 (lp.2, d), bucketAdd s.2 lp.1 (stub lp.1))) (di, wi)
      port_index rest models s.1 s.2

/-- Per-net accumulator: device id to the list of its port names found on
the net (`netdevs` in the source). -/
abbrev NetDevs := List (String × List (Option String))

/-- The port map `getports` computes for a wire document. -/
def wirePortsList (d : Doc) : List (Coord × Option String) :=
  insertD (insertD [] (d.x, d.y) none) (d.x + d.rx, d.y + d.ry) none

/-- The endpoint coordinates over which the flood fill iterates for a wire. -/
def wireLocs (d : Doc) : List Coord :=
  (wirePortsList d).map (fun e => e.1)

/-- `netdevs.setdefault(k, []).append(p)`. -/
def ndAdd (nd : NetDevs) (k : String) (p : Option String) : NetDevs :=
  match nd with
  | [] => [(k, [p])]
  | (k', ps) :: t => if k' = k then (k', ps ++ [p]) :: t else (k', ps) :: ndAdd t k p

/-- One endpoint step of the flood fill: pop the wire bucket at `lp` into the
queue if present, and record every device-index entry at `lp`. -/
def floodStep (di : DI) (s : WI × List Doc × NetDevs) (lp : Coord) :
    WI × List Doc × NetDevs :=
  let s1 : WI × List Doc :=
    match dpop s.1 lp with
    | some (bucket, wi') => (wi', s.2.1 ++ bucket)
    | none => (s.1, s.2.1)
  let nd :=
    match dlookup di lp with
    | some devs => devs.foldl (fun nd pd => ndAdd nd pd.2.id pd.1) s.2.2
    | none => s.2.2
  (s1.1, s1.2, nd)

/-- The inner `while net:` flood fill of `netlist` (lines 225-244), indexed
by fuel.  Each iteration pops one entity from the queue; a `wire` moves its
endpoint buckets from the index into the queue and records device terminals,
a `port` overwrites the candidate net name, anything else raises
`ValueError(device_type)`. -/
def processNet (di : DI) (models : Models) :
    ℕ → WI → List Doc → Option String → NetDevs →
    Except NetErr (WI × Option String × NetDevs)
  | _, wi, [], netname, nd => .ok (wi, netname, nd)
  | 0, _, _ :: _, _, _ => .error .fuel
  | fuel + 1, wi, d :: rest, netname, nd =>
    if d.type = "wire" then
      let netname' := if netname = none ∧ d.name ≠ none then d.name else netname
      match getports d models with
      | .error e => .error e
      | .ok ports =>
        let s := (ports.map (·.1)).foldl (floodStep di) (wi, rest, nd)
        processNet di models fuel s.1 s.2.1 netname' s.2.2
    else if d.type = "port" then
      processNet di models fuel wi rest d.name nd
    else
      .error (.valueError d.type)

instance : DecidableEq (WI × Option String × NetDevs) := instDecidableEqProd

/-- The per-entity update of the candidate net name inside the flood fill
(netlist.py lines 233-242): a wire document's name is captured only when no
name is held yet, a port document's name replaces the candidate
unconditionally.  (An entity of any other type raises before reaching
either assignment.) -/
def captureStep (netname : Option String) (d : Doc) : Option String :=
  if d.type = "wire" then
    if netname = none ∧ d.name ≠ none then d.name else netname
  else
    d.name

/-- `processNet` instrumented to also return the list of entities popped
from the queue, in traversal order. -/
def processNetTr (di : DI) (models : Models) :
    ℕ → WI → List Doc → Option String → NetDevs →
    Except NetErr (WI × Option String × NetDevs × List Doc)
  | _, wi, [], netname, nd => .ok (wi, netname, nd, [])
  | 0, _, _ :: _, _, _ => .error .fuel
  | fuel + 1, wi, d :: rest, netname, nd =>
    if d.type = "wire" then
      let netname' := if netname = none ∧ d.name ≠ none then d.name else netname
      match getports d models with
      | .error e => .error e
      | .ok ports =>
        let s := (ports.map (·.1)).foldl (floodStep di) (wi, rest, nd)
        match processNetTr di models fuel s.1 s.2.1 netname' s.2.2 with
        | .error e => .error e
        | .ok (w, n, nd2, tr) => .ok (w, n, nd2, d :: tr)
    else if d.type = "port" then
      match processNetTr di models fuel wi rest d.name nd with
      | .error e => .error e
      | .ok (w, n, nd2, tr) => .ok (w, n, nd2, d :: tr)
    else
      .error (.valueError d.type)

/-- Net-name-keyed accumulator (`nl` in the source). -/
abbrev NL := List (String × NetDevs)

/-- `netdevs.setdefault(k, []).extend(v)`: record several ports of one
device at once. -/
def mergeInto (nd : NetDevs) (k : String) (v : List (Option String)) : NetDevs :=
  v.foldl (fun nd p => ndAdd nd k p) nd

/-- `nl.setdefault(netname, {}).setdefault(k, []).extend(v)`. -/
def nlExtend (nl : NL) (netname : String) (k : String) (v : List (Option String)) : NL :=
  match nl with
  | [] => [(netname, mergeInto [] k v)]
  | (n, nd) :: t =>
    if n = netname then (n, mergeInto nd k v) :: t
    else (n, nd) :: nlExtend t netname k v

/-- `for k, v in netdevs.items(): nl.setdefault(netname, {}).setdefault(k, []).extend(v)`. -/
def ndMerge (nl : NL) (netname : String) (nd : NetDevs) : NL :=
  nd.foldl (fun nl kv => nlExtend nl netname kv.1 kv.2) nl

/-- The outer `while wire_index:` loop of `netlist` (lines 220-249), indexed
by fuel.  Pops the last bucket of the index as the seed of a new net, flood
fills it, then merges the collected device terminals under the chosen or
synthesized net name. -/
def netlistLoop (di : DI) (models : Models) :
    ℕ → WI → ℕ → NL → Except NetErr NL
  | _, [], _, nl => .ok nl
  | 0, _ :: _, _, _ => .error .fuel
  | fuel + 1, wi, netnum, nl =>
    match dpopitem wi with
    | none => .ok nl
    | some ((_, locwires), wi') =>
      match processNet di models (entities wi' + locwires.length) wi' locwires none [] with
      | .error e => .error e
      | .ok (wi'', netname?, nd) =>
        let netname := match netname? with
          | some n => n
          | none => "net" ++ toString netnum
        let netnum' := match netname? with
          | some _ => netnum
          | none => netnum + 1
        netlistLoop di models fuel wi'' netnum' (ndMerge nl netname nd)

/-- Final inverted mapping: device id to port name to net name. -/
abbrev INL := List (String × List (Option String × String))

/-- `inl.setdefault(dev, {})[port] = net`. -/
def inlSet (inl : INL) (dev : String) (port : Option String) (net : String) : INL :=
  match inl with
  | [] => [(dev, [(port, net)])]
  | (d, pm) :: t =>
    if d = dev then (d, insertD pm port net) :: t
    else (d, pm) :: inlSet t dev port net

/-- Inversion of one net's device/port collection (the body of the outer
`for net, devs in nl.items()` loop, lines 251-254). -/
def invertEntry (inl : INL) (e : String × NetDevs) : INL :=
  e.2.foldl (fun inl devpts =>
    devpts.2.foldl (fun inl p => inlSet inl devpts.1 p e.1) inl) inl

/-- The final inversion loop of `netlist` (lines 250-254). -/
def invert (nl : NL) : INL :=
  nl.foldl invertEntry []

/-- `netlist(docs, models)`: the full net extraction engine (lines 205-255).
Returns the device-id to port-name to net-name mapping. -/
def netlist (docs : List (String × Doc)) (models : Models) : Except NetErr INL :=
  match port_index docs models [] [] with
  | .error e => .error e
  | .ok (di, wi) =>
    match netlistLoop di models wi.length wi 0 [] with
    | .error e => .error e
    | .ok nl => .ok (invert nl)

/-- Lookup of one device terminal's net in the result of `netlist`. -/
def ilookup (inl : INL) (dev : String) (port : Option String) : Option String :=
  match dlookup inl dev with
  | some pm => dlookup pm port
  | none => none

/-! ### SPICE emitter: used-model tracking and sub-circuit declarations
(netlist.py lines 258-433) -/

/-- `used_models` as collected by `populate_from_nyancad`: iterate the
netlisted devices in order and record each resolvable model key.  CPython
stores them in an unordered `set`; the embedding keeps first-occurrence
order, which the membership and no-duplicate properties below do not depend
on.  `docs[dev_id]` raising `KeyError` is modelled by the error case. -/
def umStep (docs : List (String × Doc)) (models : Models)
    (acc : List String) (devports : String × List (Option String × String)) :
    Except NetErr (List String) :=
  match dlookup docs devports.1 with
  | none => .error (.keyError devports.1)
  | some dev =>
    match checkedModelKey dev.model with
    | .error e => .error e
    | .ok none => pure acc
    | .ok (some key) =>
      if (dlookup models key).isSome then
        pure (if key ∈ acc then acc else acc ++ [key])
      else
        pure acc

def usedModels (docs : List (String × Doc)) (models : Models) :
    Except NetErr (List String) :=
  match netlist docs models with
  | .error e => .error e
  | .ok inl => inl.foldlM (umStep docs models) []

/-- The list of sub-circuit names declared by `NyanCircuit.__init__`
(netlist.py lines 407-433): one `.subckt` per used model whose bare id is a
schematic group other than the top-level one.  `NyanSubCircuit` only
populates elements, so the recursion adds no further declarations. -/
def declStep (name : String) (schem : List (String × List (String × Doc)))
    (models : Models) (acc : List String) (key : String) :
    Except NetErr (List String) :=
  match dlookup models key with
  | none => .error (.keyError key)
  | some _ =>
    match checkedBareId key with
    | .error e => .error e
    | .ok mid =>
      if mid ≠ name ∧ (dlookup schem mid).isSome then
        pure (acc ++ [mid])
      else
        pure acc

def subcktDecls (name : String) (schem : List (String × List (String × Doc)))
    (models : Models) : Except NetErr (List String) :=
  match dlookup schem name with
  | none => .error (.keyError name)
  | some docs =>
    match usedModels docs models with
    | .error e => .error e
    | .ok used => used.foldlM (declStep name schem models) []

/-! ### SPICE code injection with parse-or-fallback
(netlist.py lines 453-484) -/

/-- The parts of an InSpice `Circuit` object that `add_spice_code` touches. -/
structure SpiceCircuit where
  raw_spice : String := ""
  items : List String := []
  includes : List String := []
  libs : List (String × Option String) := []
  parameters : List (String × String) := []
deriving DecidableEq, Repr

/-- What a successful structured parse of a SPICE template yields (the
`parsed_circuit` built by the InSpice `SpiceSource`/`Builder` pipeline,
which is external to this repository and therefore abstract here). -/
structure ParsedCircuit where
  items : List String := []
  includes : List String := []
  libs : List (String × Option String) := []
  parameters : List (String × String) := []
deriving DecidableEq, Repr

/-- `NyanCircuit.add_spice_code`: run the whole `try` body (parse, resolve
includes, build, copy over) represented by `translate`; on any exception
log the failure and append the stripped raw text to `raw_spice` instead of
re-raising.  The function is total: no error escapes. -/
def add_spice_code (translate : String → Except String ParsedCircuit)
    (self : SpiceCircuit) (spice_code : String) : SpiceCircuit × List String :=
  match translate spice_code with
  | .ok parsed =>
    ({ self with
        items := self.items ++ parsed.items,
        includes := self.includes ++ parsed.includes,
        libs := self.libs ++ parsed.libs,
        parameters := self.parameters ++ parsed.parameters }, [])
  | .error e =>
    ({ self with raw_spice := self.raw_spice ++ "\n" ++ spice_code.trim ++ "\n" },
     ["SPICE parsing failed: " ++ e, "Falling back to raw SPICE injection"])

/-! ### Hierarchy resolver: `ServerAPI.get_all_schem_docs`
(api.py lines 200-256) -/

/-- State of the hierarchy-resolution BFS.  `groups` is the result `schem`
dict minus its reserved `"models"` entry; `fetched` logs every
`get_docs` call made for a sub-circuit body, `inspected` logs every model
key that passed the seen-set guard. -/
structure HierState where
  groups : List (String × List (String × Doc)) := []
  queue : List Doc := []
  seen : List String := []
  fetched : List String := []
  inspected : List String := []
deriving DecidableEq, Repr

/-- Keys present in the Python `schem` dict: the reserved `"models"` entry
plus every group added so far. -/
def hierKeys (st : HierState) : List String :=
  "models" :: st.groups.map (fun g => g.1)

/-- Truthiness of `model_def.get('templates')`: `None`, an absent key and
an empty mapping are all falsy. -/
def templatesFalsy (t : Option (List (String × List Template))) : Bool :=
  match t with
  | none => true
  | some l => l.isEmpty

/-- The `while queue:` BFS of `get_all_schem_docs`, indexed by fuel. -/
def bfsLoop (models : Models) (store : String → List (String × Doc)) :
    ℕ → HierState → Except NetErr HierState
  | 0, st => if st.queue.isEmpty then .ok st else .error .fuel
  | fuel + 1, st =>
    match st.queue with
    | [] => .ok st
    | dev :: rest =>
      let st0 := { st with queue := rest }
      match dev.model with
      | none => bfsLoop models store fuel st0
      | some bare =>
        -- Python: `if not model_id_bare: continue` treats "" as falsy too
        if bare.isEmpty then bfsLoop models store fuel st0 else
        match checkedModelKey (some bare) with
        | .error e => .error e
        | .ok none => bfsLoop models store fuel st0
        | .ok (some key) =>
          if key ∈ st0.seen then
            bfsLoop models store fuel st0
          else
            let st1 := { st0 with seen := key :: st0.seen,
                                  inspected := st0.inspected ++ [key] }
            match dlookup models key with
            | none => bfsLoop models store fuel st1
            | some mdef =>
              if templatesFalsy mdef.templates then
                if bare ∈ hierKeys st1 then
                  bfsLoop models store fuel st1
                else
                  let subdocs := store bare
                  let st2 := { st1 with fetched := st1.fetched ++ [bare] }
                  if subdocs.isEmpty then
                    bfsLoop models store fuel st2
                  else
                    bfsLoop models store fuel
                      { st2 with groups := st2.groups ++ [(bare, subdocs)],
                                 queue := st2.queue ++ subdocs.map (fun kv => kv.2) }
              else
                bfsLoop models store fuel st1

/-- `ServerAPI.get_all_schem_docs`: fetch the model library and the
top-level group, then BFS-resolve the hierarchical sub-circuits.  `store`
abstracts `get_docs` (the CouchDB range fetch); `models` is the result of
the initial `get_docs("models")` call. -/
def get_all_schem_docs (models : Models) (store : String → List (String × Doc))
    (name : String) (fuel : ℕ) : Except NetErr HierState :=
  let docs := store name
  if docs.isEmpty then
    .ok {}
  else
    bfsLoop models store fuel
      { groups := [(name, docs)], queue := docs.map (fun kv => kv.2) }

/-! ### Derived predicates used by the statements -/

/-- Device-index bucket at a coordinate (empty if absent). -/
def diAt (di : DI) (loc : Coord) : List (Option String × Doc) :=
  (dlookup di loc).getD []

/-- Wire-index bucket at a coordinate (empty if absent). -/
def wiAt (wi : WI) (loc : Coord) : List Doc :=
  (dlookup wi loc).getD []

/-- Port `p` of device `k` has been recorded in a per-net accumulator. -/
def recorded (nd : NetDevs) (k : String) (p : Option String) : Prop :=
  ∃ ps, (k, ps) ∈ nd ∧ p ∈ ps

instance decRecorded (nd : NetDevs) (k : String) (p : Option String) :
    Decidable (recorded nd k p) :=
  decidable_of_iff (∃ e ∈ nd, e.1 = k ∧ p ∈ e.2) (by
    constructor
    · rintro ⟨⟨k0, ps⟩, hmem, hk, hp⟩
      exact ⟨ps, hk ▸ hmem, hp⟩
    · rintro ⟨ps, hmem, hp⟩
      exact ⟨(k, ps), hmem, rfl, hp⟩)

/-- Port `p` of device `k` has been recorded in some net of `nl`. -/
def nlRecorded (nl : NL) (k : String) (p : Option String) : Prop :=
  ∃ e, e ∈ nl ∧ recorded e.2 k p

/-- Merge a whole per-net accumulator into another. -/
def mergeAll (base nd : NetDevs) : NetDevs :=
  nd.foldl (fun acc kv => mergeInto acc kv.1 kv.2) base

/-- Two fixed device terminals are recorded together or not at all. -/
def pairIff (k1 : String) (p1 : Option String) (k2 : String) (p2 : Option String)
    (devs : NetDevs) : Prop :=
  recorded devs k1 p1 ↔ recorded devs k2 p2

/-- A document that `port_index` treats as a device (terminal-bearing). -/
def isDevice (d : Doc) : Prop :=
  d.type ≠ "wire" ∧ d.type ≠ "port"

/-! ### Concrete inputs used by the per-claim evaluations -/

/-- The input of the spec's worked example: wire (0,0)-(2,0), resistor at
(0,0) with the identity transform, port "VIN" at (2,0). -/
def c1docs : List (String × Doc) :=
  [("W1", { id := "W1", type := "wire", x := 0, y := 0, rx := 2, ry := 0 }),
   ("R1", { id := "R1", type := "resistor", x := 0, y := 0 }),
   ("P1", { id := "P1", type := "port", x := 2, y := 0, name := some "VIN" })]

/-- The same schematic with the wire moved to run from (1,0) (the actual
location of the resistor's P terminal) to the port at (2,0). -/
def c1docsFixed : List (String × Doc) :=
  [("W1", { id := "W1", type := "wire", x := 1, y := 0, rx := 1, ry := 0 }),
   ("R1", { id := "R1", type := "resistor", x := 0, y := 0 }),
   ("P1", { id := "P1", type := "port", x := 2, y := 0, name := some "VIN" })]

/-- A net in which the flood fill processes a wire named `wn` before a port
named `pn`: both are in the seed bucket at (1,0), the wire first.  The
resistor at (-1,0) has its P terminal at (0,0), on the wire's other end, so
the chosen net name is observable in the output. -/
def c3docs (wn pn : String) : List (String × Doc) :=
  [("W1", { id := "W1", type := "wire", x := 0, y := 0, rx := 1, ry := 0,
            name := some wn }),
   ("P1", { id := "P1", type := "port", x := 1, y := 0, name := some pn }),
   ("R1", { id := "R1", type := "resistor", x := -1, y := 0 })]

/-- Two electrically disconnected port+resistor groups whose ports share the
name "VDD": one at (0,0)/(0,2), one at (10,10)/(10,12). -/
def c10docs : List (String × Doc) :=
  [("top:p1", { id := "top:p1", type := "port", x := 0, y := 0, name := some "VDD" }),
   ("top:R1", { id := "top:R1", type := "resistor", x := -1, y := 0 }),
   ("top:p2", { id := "top:p2", type := "port", x := 10, y := 10, name := some "VDD" }),
   ("top:R2", { id := "top:R2", type := "resistor", x := 9, y := 10 })]

/-- The device index `port_index` computes for `c10docs`. -/
def c10di : DI :=
  [((0, 0), [(some "P", { id := "top:R1", type := "resistor", x := -1, y := 0 })]),
   ((0, 2), [(some "N", { id := "top:R1", type := "resistor", x := -1, y := 0 })]),
   ((10, 10), [(some "P", { id := "top:R2", type := "resistor", x := 9, y := 10 })]),
   ((10, 12), [(some "N", { id := "top:R2", type := "resistor", x := 9, y := 10 })])]

/-- The wire index `port_index` computes for `c10docs`: each group's port
document plus the synthetic stubs. -/
def c10wi : WI :=
  [((0, 0), [{ id := "top:p1", type := "port", x := 0, y := 0, name := some "VDD" },
             stub (0, 0)]),
   ((0, 2), [stub (0, 2)]),
   ((10, 10), [{ id := "top:p2", type := "port", x := 10, y := 10, name := some "VDD" },
               stub (10, 10)]),
   ((10, 12), [stub (10, 12)])]

/-- The accumulator `netlistLoop` produces for `c10docs`: the two
disconnected groups' P terminals share the single entry named "VDD". -/
def c10nl : NL :=
  [("net0", [("top:R2", [some "N"])]),
   ("VDD", [("top:R2", [some "P"]), ("top:R1", [some "P"])]),
   ("net1", [("top:R1", [some "N"])])]

/-- A wire document named "foo", the first entity of a two-entity net. -/
def c3wire : Doc :=
  { id := "W1", type := "wire", x := 0, y := 0, rx := 1, ry := 0, name := some "foo" }

/-- A port document named "VIN", processed after `c3wire` on the same net. -/
def c3port : Doc :=
  { id := "P1", type := "port", x := 1, y := 0, name := some "VIN" }

/-- Two resistors with one shared terminal coordinate and no wires at all:
R1's P and R2's N both sit at (1,0). -/
def c2docs : List (String × Doc) :=
  [("top:R1", { id := "top:R1", type := "resistor", x := 0, y := 0 }),
   ("top:R2", { id := "top:R2", type := "resistor", x := 0, y := -2 })]

/-- The device index `port_index` computes for `c2docs`: terminals R1.P and
R2.N share the bucket at (1,0). -/
def c2di : DI :=
  [((1, 0), [(some "P", { id := "top:R1", type := "resistor", x := 0, y := 0 }),
             (some "N", { id := "top:R2", type := "resistor", x := 0, y := -2 })]),
   ((1, 2), [(some "N", { id := "top:R1", type := "resistor", x := 0, y := 0 })]),
   ((1, -2), [(some "P", { id := "top:R2", type := "resistor", x := 0, y := -2 })])]

/-- The wire index `port_index` computes for `c2docs`: only the synthetic
zero-length stubs, two of them in the shared bucket at (1,0). -/
def c2wi : WI :=
  [((1, 0), [stub (1, 0), stub (1, 0)]),
   ((1, 2), [stub (1, 2)]),
   ((1, -2), [stub (1, -2)])]

/-- The mapping `netlist` returns for `c2docs`: the shared terminal pair gets
the one net "net2". -/
def c2inl : INL :=
  [("top:R2", [(some "P", "net0"), (some "N", "net2")]),
   ("top:R1", [(some "N", "net1"), (some "P", "net2")])]

/-- Model library for the hierarchy examples: three schematic sub-circuits
(no `templates`), each with a single port A on its left edge. -/
def c4models : Models :=
  [("models:S1", { name := "S1", ports := { left := ["A"] } }),
   ("models:S2", { name := "S2", ports := { left := ["A"] } }),
   ("models:M", { name := "M", ports := { left := ["A"] } })]

/-- Full schematic: the top group instantiates S1 and S2; the bodies of S1
and S2 each instantiate M; M's body is a lone resistor.  M is therefore
instantiated from two different parent groups, neither of them top. -/
def c4schem : List (String × List (String × Doc)) :=
  [("top", [("top:X1", { id := "top:X1", type := "circuit", x := 0, y := 0,
                         model := some "S1" }),
            ("top:X2", { id := "top:X2", type := "circuit", x := 10, y := 0,
                         model := some "S2" })]),
   ("S1", [("S1:XM", { id := "S1:XM", type := "circuit", x := 0, y := 0,
                       model := some "M" })]),
   ("S2", [("S2:XM", { id := "S2:XM", type := "circuit", x := 0, y := 0,
                       model := some "M" })]),
   ("M", [("M:R1", { id := "M:R1", type := "resistor", x := 0, y := 0 })])]

/-- A model library with a single model "M" whose `templates` entry is
present but empty (`templates: {}` in JSON) - falsy in Python. -/
def c8models : Models :=
  [("models:M", { name := "M", ports := { left := ["A"] }, templates := some [] })]

/-- Document store for the C8 example: the top group holds one instance of
M; M's body holds one resistor. -/
def c8store (group : String) : List (String × Doc) :=
  if group = "top" then
    [("top:X1", { id := "top:X1", type := "circuit", x := 0, y := 0,
                  model := some "M" })]
  else if group = "M" then
    [("M:R1", { id := "M:R1", type := "resistor", x := 0, y := 0 })]
  else []

/-- All grid coordinates at which a document group has any wire, port or
device terminal: the key set of its wire index. -/
def groupCoords (docs : List (String × Doc)) (models : Models) : List Coord :=
  match port_index docs models [] [] with
  | .ok (_, wi) => wi.map (fun e => e.1)
  | .error _ => []

/-- Invariant of the hierarchy-resolution BFS: the fetch and inspection
logs are duplicate-free, every fetched group's model key has been seen and
resolves to a library model with falsy `templates`, and the inspection log
matches the seen set. -/
def bfsInv (models : Models) (st : HierState) : Prop :=
  st.fetched.Nodup ∧ st.inspected.Nodup ∧
  (∀ g ∈ st.fetched, ("models:" ++ g) ∈ st.seen ∧
    ∃ m, dlookup models ("models:" ++ g) = some m ∧ templatesFalsy m.templates) ∧
  (∀ k, k ∈ st.inspected ↔ k ∈ st.seen)

/-! ## Theorems -/

theorem denQ_ne_zero (a : ℚ) : ((a.den : ℚ)) ≠ 0 :=
  Nat.cast_ne_zero.mpr (Rat.den_ne_zero a)

theorem qadd_eq (a b : ℚ) : qadd a b = a + b := by
  rw [qadd, Rat.divInt_eq_div]
  push_cast
  conv_rhs => rw [← Rat.num_div_den a, ← Rat.num_div_den b]
  rw [div_add_div _ _ (denQ_ne_zero a) (denQ_ne_zero b)]
  ring_nf

theorem qsub_eq (a b : ℚ) : qsub a b = a - b := by
  rw [qsub, Rat.divInt_eq_div]
  push_cast
  conv_rhs => rw [← Rat.num_div_den a, ← Rat.num_div_den b]
  rw [div_sub_div _ _ (denQ_ne_zero a) (denQ_ne_zero b)]
  ring_nf

theorem qmul_eq (a b : ℚ) : qmul a b = a * b := by
  rw [qmul, Rat.divInt_eq_div]
  push_cast
  conv_rhs => rw [← Rat.num_div_den a, ← Rat.num_div_den b]
  rw [div_mul_div_comm]

theorem qdiv_eq (a b : ℚ) : qdiv a b = a / b := by
  rcases eq_or_ne b 0 with hb | hb
  · subst hb
    simp [qdiv, Rat.divInt_eq_div]
  · rw [qdiv, Rat.divInt_eq_div]
    push_cast
    conv_rhs => rw [← Rat.num_div_den a, ← Rat.num_div_den b]
    rw [div_div_div_eq]

theorem qhalf_eq : qhalf = 1 / 2 := by
  rw [qhalf, Rat.divInt_eq_div]
  norm_num

theorem pyfloor_intCast (n : ℤ) : pyfloor (n : ℚ) = n := by
  simp only [pyfloor, Rat.num_intCast, Rat.den_intCast, Nat.cast_one]
  exact Int.ediv_one n

theorem pyround_intCast (n : ℤ) : pyround (n : ℚ) = n := by
  simp only [pyround, pyfloor_intCast, qsub_eq, qhalf_eq]
  norm_num


theorem twoport_shape_eval :
    twoport_shape = [((1 : ℤ), (0 : ℤ), "P"), ((1 : ℤ), (2 : ℤ), "N")] := by decide

theorem rotate_twoport_identity (x y : ℤ) :
    rotate twoport_shape identityTransform x y =
      .ok [((x + 1, y), some "P"), ((x + 1, y + 2), some "N")] := by
  rw [twoport_shape_eval]
  simp only [rotate, List.foldl, pymax, identityTransform]
  norm_num [qadd_eq, qsub_eq, qmul_eq, qdiv_eq, qhalf_eq]
  rw [show ((x : ℚ) + 1) = (((x + 1 : ℤ)) : ℚ) by push_cast; ring]
  rw [show ((y : ℚ) + 1 + 1) = (((y + 2 : ℤ)) : ℚ) by push_cast; ring]
  rw [pyround_intCast, pyround_intCast, pyround_intCast]
  simp only [insertD, Prod.mk.injEq]
  rw [if_neg (by intro hc; omega)]


theorem rotate_twoport_rot180 (x y : ℤ) :
    rotate twoport_shape rot180Transform x y =
      .ok [((x + 1, y + 2), some "P"), ((x + 1, y), some "N")] := by
  rw [twoport_shape_eval]
  simp only [rotate, List.foldl, pymax, rot180Transform]
  norm_num [qadd_eq, qsub_eq, qmul_eq, qdiv_eq, qhalf_eq]
  rw [show ((x : ℚ) + 1) = (((x + 1 : ℤ)) : ℚ) by push_cast; ring]
  rw [show ((y : ℚ) + 1 + 1) = (((y + 2 : ℤ)) : ℚ) by push_cast; ring]
  rw [pyround_intCast, pyround_intCast, pyround_intCast]
  simp only [insertD, Prod.mk.injEq]
  rw [if_neg (by intro hc; omega)]

/-- C9: for every two-terminal primitive device at origin (x,y), the
identity transform [1,0,0,1,0,0] places port P directly above port N
(P at (x+1,y), N at (x+1,y+2)), and the 180-degree transform
[-1,0,0,-1,0,0] yields exactly the two coordinates swapped
(P at (x+1,y+2), N at (x+1,y)). -/
theorem c9_twoport_rotation (t : String) (x y : ℤ) (models : Models)
    (ht : t = "resistor" ∨ t = "capacitor" ∨ t = "inductor" ∨ t = "vsource" ∨
          t = "isource" ∨ t = "diode") :
    getports { type := t, x := x, y := y, transform := some identityTransform } models =
        .ok [((x + 1, y), some "P"), ((x + 1, y + 2), some "N")] ∧
    getports { type := t, x := x, y := y, transform := some rot180Transform } models =
        .ok [((x + 1, y + 2), some "P"), ((x + 1, y), some "N")] := by
  rcases ht with h | h | h | h | h | h <;> subst h <;>
    exact And.intro
      (by simp +decide only [getports, Option.getD_some, if_true, if_false]
          exact rotate_twoport_identity x y)
      (by simp +decide only [getports, Option.getD_some, if_true, if_false]
          exact rotate_twoport_rot180 x y)

/-- Witness for C9 at the resistor type and the origin. -/
theorem c9_twoport_rotation_witness :
    ("resistor" = "resistor" ∨ "resistor" = "capacitor" ∨ "resistor" = "inductor" ∨
     "resistor" = "vsource" ∨ "resistor" = "isource" ∨ "resistor" = "diode") ∧
    (getports { type := "resistor", x := 0, y := 0,
                transform := some identityTransform } [] =
        .ok [((0 + 1, 0), some "P"), ((0 + 1, 0 + 2), some "N")] ∧
     getports { type := "resistor", x := 0, y := 0,
                transform := some rot180Transform } [] =
        .ok [((0 + 1, 0 + 2), some "P"), ((0 + 1, 0), some "N")]) :=
  ⟨Or.inl rfl, c9_twoport_rotation "resistor" 0 0 [] (Or.inl rfl)⟩

/-- C5: for every template string given to the emitter, if structured SPICE
parsing of the template code fails for any reason, the operation does not
raise (it is a total function into a circuit state rather than an error):
the stripped raw text is appended verbatim to the raw-passthrough
`raw_spice` section, the failure is logged, and the rest of the circuit
state is left intact so generation continues. -/
theorem c5_parse_fallback (translate : String → Except String ParsedCircuit)
    (self : SpiceCircuit) (code : String) (e : String)
    (h : translate code = .error e) :
    (add_spice_code translate self code).1.raw_spice
        = self.raw_spice ++ "\n" ++ code.trim ++ "\n" ∧
    List.IsInfix code.trim.data (add_spice_code translate self code).1.raw_spice.data ∧
    (add_spice_code translate self code).2
        = ["SPICE parsing failed: " ++ e, "Falling back to raw SPICE injection"] ∧
    (add_spice_code translate self code).1.items = self.items := by
  refine ⟨by simp [add_spice_code, h], ?_, by simp [add_spice_code, h],
          by simp [add_spice_code, h]⟩
  simp only [add_spice_code, h]
  refine ⟨(self.raw_spice ++ "\n").data, "\n".data, ?_⟩
  simp [String.data_append]

/-- Witness for C5: a parser that always fails, fed a malformed template. -/
theorem c5_parse_fallback_witness :
    ((fun _ : String => (Except.error "syntax error" : Except String ParsedCircuit))
        ".subckt broken" = .error "syntax error") ∧
    ((add_spice_code (fun _ => .error "syntax error") {} ".subckt broken").1.raw_spice
        = "" ++ "\n" ++ ".subckt broken".trim ++ "\n" ∧
     List.IsInfix ".subckt broken".trim.data
       (add_spice_code (fun _ => .error "syntax error") {} ".subckt broken").1.raw_spice.data ∧
     (add_spice_code (fun _ => .error "syntax error") {} ".subckt broken").2
        = ["SPICE parsing failed: " ++ "syntax error",
           "Falling back to raw SPICE injection"] ∧
     (add_spice_code (fun _ => .error "syntax error")
        ({} : SpiceCircuit) ".subckt broken").1.items = ({} : SpiceCircuit).items) :=
  ⟨rfl, c5_parse_fallback (fun _ => .error "syntax error") {} ".subckt broken"
      "syntax error" rfl⟩

/-- C6: for every hierarchical-instance document whose model reference is
absent or cannot be resolved in the model library, `getports` returns an
empty port map and does not raise. -/
theorem c6_unresolved_model_empty (d : Doc) (models : Models)
    (ht : d.type ≠ "wire" ∧ d.type ≠ "text" ∧ d.type ≠ "port" ∧
          d.type ≠ "nmos" ∧ d.type ≠ "pmos" ∧ d.type ≠ "npn" ∧ d.type ≠ "pnp" ∧
          d.type ≠ "resistor" ∧ d.type ≠ "capacitor" ∧ d.type ≠ "inductor" ∧
          d.type ≠ "vsource" ∧ d.type ≠ "isource" ∧ d.type ≠ "diode")
    (hm : d.model = none ∨
          ∃ m, d.model = some m ∧ ¬ pystartswith m "models:" ∧
               dlookup models ("models:" ++ m) = none) :
    getports d models = .ok [] := by
  obtain ⟨h1, h2, h3, h4, h5, h6, h7, h8, h9, h10, h11, h12, h13⟩ := ht
  simp only [getports, if_neg h1, if_neg h2, if_neg h3,
             if_neg (fun hc => Or.elim hc h4 h5), if_neg (fun hc => Or.elim hc h6 h7),
             if_neg (fun hc => Or.elim hc h8 (fun hc => Or.elim hc h9 (fun hc =>
               Or.elim hc h10 (fun hc => Or.elim hc h11 (fun hc => Or.elim hc h12 h13)))))]
  rcases hm with hnone | ⟨m, hsome, hpre, hlook⟩
  · simp [hnone, checkedModelKey]
  · simp [hsome, checkedModelKey, hpre, hlook]

/-- Witness for C6: an instance of an unknown model in an empty library. -/
theorem c6_unresolved_model_empty_witness :
    (("circuit" : String) ≠ "wire" ∧ ("circuit" : String) ≠ "text" ∧
     ("circuit" : String) ≠ "port" ∧ ("circuit" : String) ≠ "nmos" ∧
     ("circuit" : String) ≠ "pmos" ∧ ("circuit" : String) ≠ "npn" ∧
     ("circuit" : String) ≠ "pnp" ∧ ("circuit" : String) ≠ "resistor" ∧
     ("circuit" : String) ≠ "capacitor" ∧ ("circuit" : String) ≠ "inductor" ∧
     ("circuit" : String) ≠ "vsource" ∧ ("circuit" : String) ≠ "isource" ∧
     ("circuit" : String) ≠ "diode") ∧
    getports { type := "circuit", x := 0, y := 0, model := some "ghost" } [] = .ok [] :=
  ⟨by decide,
   c6_unresolved_model_empty { type := "circuit", x := 0, y := 0, model := some "ghost" } []
     (by decide) (Or.inr ⟨"ghost", rfl, by decide, rfl⟩)⟩

/-- C7 (amended): whenever an entity whose type is neither "wire" nor
"port" is taken from the wire index by the flood fill, `netlist`'s inner
loop aborts by raising `ValueError`, and the error carries the offending
entity's type tag (not its document id or model key). -/
theorem c7_bad_type_raises (di : DI) (models : Models) (fuel : ℕ) (wi : WI)
    (d : Doc) (q : List Doc) (nm : Option String) (nd : NetDevs)
    (h1 : d.type ≠ "wire") (h2 : d.type ≠ "port") :
    processNet di models (fuel + 1) wi (d :: q) nm nd = .error (.valueError d.type) := by
  simp [processNet, h1, h2]

/-- Witness for C7's amended theorem. -/
theorem c7_bad_type_raises_witness :
    (("resistor" : String) ≠ "wire" ∧ ("resistor" : String) ≠ "port") ∧
    processNet [] [] 1 [] [{ id := "top:X1", type := "resistor" }] none [] =
        .error (.valueError "resistor") :=
  ⟨by decide,
   c7_bad_type_raises [] [] 0 [] { id := "top:X1", type := "resistor" } [] none []
     (by decide) (by decide)⟩

/-- Counterexample for C7 as stated: the raised error's message is the bare
type tag "resistor"; the offending document's id "top:X1" (and any model
key) is absent from it, so the error does not identify the document. -/
theorem c7_counterexample :
    processNet [] [] 1 [] [{ id := "top:X1", type := "resistor" }] none [] =
        .error (.valueError "resistor") ∧
    ¬ List.IsInfix "top:X1".data "resistor".data := by
  exact ⟨by decide, by decide⟩

/-- Counterexample for C1: on the spec's input (wire (0,0)-(2,0), resistor
at (0,0) with identity transform, port "VIN" at (2,0)) the resistor's P
terminal sits at (1,0) and N at (1,2), neither of which is a wire endpoint,
so netlist assigns R1's P the synthesized net name "net1", not "VIN". -/
theorem c1_counterexample :
    netlist c1docs [] = .ok [("R1", [(some "N", "net0"), (some "P", "net1")])] ∧
    ilookup [("R1", [(some "N", "net0"), (some "P", "net1")])] "R1" (some "P")
        = some "net1" ∧
    ("net1" : String) ≠ "VIN" := by
  refine ⟨by decide, by decide, by decide⟩

/-- C1 (amended): with the wire running from (1,0) - the actual coordinate
of R1's P terminal under the identity transform - to the port at (2,0),
the wire carries the port's name to the resistor terminal: netlist assigns
R1's P the net name "VIN" (and N a synthesized name). -/
theorem c1_amended :
    netlist c1docsFixed [] = .ok [("R1", [(some "N", "net0"), (some "P", "VIN")])] ∧
    ilookup [("R1", [(some "N", "net0"), (some "P", "VIN")])] "R1" (some "P")
        = some "VIN" := by
  refine ⟨by decide, by decide⟩

/-- Counterexample for C3: in `c3docs "foo" "VIN"` the seed bucket at (1,0)
holds the wire (named "foo") ahead of the port (named "VIN"), so the first
non-null name encountered in traversal order is "foo"; yet the final net
name is "VIN", because a port encountered later overwrites the earlier wire
name unconditionally. -/
theorem c3_counterexample :
    netlist (c3docs "foo" "VIN") [] =
      .ok [("R1", [(some "N", "net0"), (some "P", "VIN")])] ∧
    ("VIN" : String) ≠ "foo" := by
  refine ⟨by decide, by decide⟩

theorem pystartswith_models (b : String) :
    pystartswith ("models:" ++ b) "models:" = true := by
  simp [pystartswith, String.data_append, List.isPrefixOf]

theorem pyslice7_models (b : String) : pyslice7 ("models:" ++ b) = b := by
  simp [pyslice7, String.data_append]

theorem bareId_models (b : String) : checkedBareId ("models:" ++ b) = .ok b := by
  simp [checkedBareId, pystartswith_models, pyslice7_models]

theorem checkedModelKey_ok_some (x : Option String) (key : String)
    (h : checkedModelKey x = .ok (some key)) : ∃ m, x = some m ∧ key = "models:" ++ m := by
  cases x with
  | none => simp [checkedModelKey] at h
  | some s =>
    refine ⟨s, rfl, ?_⟩
    simp only [checkedModelKey] at h
    split at h
    · exact absurd h (by simp)
    · exact (Option.some.inj (Except.ok.inj h)).symm

theorem umStep_char (docs : List (String × Doc)) (models : Models)
    (acc : List String) (dp : String × List (Option String × String))
    (acc' : List String) (h : umStep docs models acc dp = .ok acc') :
    acc' = acc ∨ ∃ b, acc' = acc ++ ["models:" ++ b] ∧ ("models:" ++ b) ∉ acc ∧
      (dlookup models ("models:" ++ b)).isSome := by
  unfold umStep at h
  cases hdl : dlookup docs dp.1 with
  | none => simp only [hdl] at h; exact Except.noConfusion h
  | some dev =>
    simp only [hdl] at h
    cases hmk : checkedModelKey dev.model with
    | error e => simp only [hmk] at h; exact Except.noConfusion h
    | ok o =>
      cases o with
      | none => simp only [hmk] at h; left; exact (Except.ok.inj h).symm
      | some key =>
        obtain ⟨m, hm, hkey⟩ := checkedModelKey_ok_some dev.model key hmk
        subst hkey
        simp only [hmk] at h
        split at h
        · split at h
          · left; exact (Except.ok.inj h).symm
          · right
            refine ⟨m, (Except.ok.inj h).symm, by assumption, by assumption⟩
        · left; exact (Except.ok.inj h).symm

theorem um_fold_spec (docs : List (String × Doc)) (models : Models)
    (l : List (String × List (Option String × String))) : ∀ acc used,
    List.foldlM (umStep docs models) acc l = .ok used →
    acc.Nodup → (∀ k ∈ acc, (∃ b, k = "models:" ++ b) ∧ (dlookup models k).isSome) →
    used.Nodup ∧ ∀ k ∈ used, (∃ b, k = "models:" ++ b) ∧ (dlookup models k).isSome := by
  induction l with
  | nil =>
    intro acc used h hnd hP
    rw [List.foldlM_nil] at h
    cases Except.ok.inj h
    exact ⟨hnd, hP⟩
  | cons x t ih =>
    intro acc used h hnd hP
    rw [List.foldlM_cons] at h
    cases hx : umStep docs models acc x with
    | error e =>
      simp only [hx, bind, Except.bind] at h
      exact Except.noConfusion h
    | ok acc' =>
      simp only [hx, bind, Except.bind] at h
      rcases umStep_char docs models acc x acc' hx with heq | ⟨b, heq, hnin, hsome⟩
      · subst heq; exact ih _ used h hnd hP
      · subst heq
        apply ih _ used h
        · simp [List.nodup_append, hnd, hnin]
        · intro k hk
          rcases List.mem_append.mp hk with hk | hk
          · exact hP k hk
          · simp only [List.mem_singleton] at hk
            subst hk
            exact ⟨⟨b, rfl⟩, hsome⟩

/-- Every key recorded in `used_models` is a prefixed key of a model present
in the library, and the set is duplicate-free. -/
theorem usedModels_spec (docs : List (String × Doc)) (models : Models)
    (used : List String) (h : usedModels docs models = .ok used) :
    used.Nodup ∧ ∀ k ∈ used, (∃ b, k = "models:" ++ b) ∧ (dlookup models k).isSome := by
  unfold usedModels at h
  cases hnl : netlist docs models with
  | error e => simp only [hnl] at h; exact Except.noConfusion h
  | ok inl =>
    simp only [hnl] at h
    exact um_fold_spec docs models inl [] used h (by simp) (by simp)

theorem declStep_eval (name : String) (schem : List (String × List (String × Doc)))
    (models : Models) (acc : List String) (b : String)
    (hm : (dlookup models ("models:" ++ b)).isSome) :
    declStep name schem models acc ("models:" ++ b) =
      .ok (if b ≠ name ∧ (dlookup schem b).isSome then acc ++ [b] else acc) := by
  obtain ⟨v, hv⟩ := Option.isSome_iff_exists.mp hm
  simp only [declStep, hv, bareId_models]
  by_cases hc : b ≠ name ∧ (dlookup schem b).isSome
  · rw [if_pos hc, if_pos hc]; rfl
  · rw [if_neg hc, if_neg hc]; rfl

theorem decl_fold (name : String) (schem : List (String × List (String × Doc)))
    (models : Models) (l : List String) : ∀ acc,
    (∀ k ∈ l, (∃ b, k = "models:" ++ b) ∧ (dlookup models k).isSome) →
    List.foldlM (declStep name schem models) acc l =
      .ok (acc ++ l.filterMap (fun k =>
        if pyslice7 k ≠ name ∧ (dlookup schem (pyslice7 k)).isSome
        then some (pyslice7 k) else none)) := by
  induction l with
  | nil =>
    intro acc _
    simp only [List.foldlM_nil, List.filterMap_nil, List.append_nil]
    rfl
  | cons k t ih =>
    intro acc hP
    obtain ⟨⟨b, hb⟩, hsome⟩ := hP k (by simp)
    subst hb
    rw [List.foldlM_cons, declStep_eval name schem models acc b hsome]
    simp only [bind, Except.bind]
    rw [ih _ (fun k hk => hP k (by simp [hk]))]
    by_cases hc : b ≠ name ∧ (dlookup schem b).isSome
    · simp [hc, pyslice7_models, List.append_assoc]
    · simp [hc, pyslice7_models]

theorem filterMap_nodup_on {α β : Type} (l : List α) (f : α → Option β)
    (hl : l.Nodup)
    (hinj : ∀ a ∈ l, ∀ a' ∈ l, ∀ b, f a = some b → f a' = some b → a = a') :
    (l.filterMap f).Nodup := by
  induction l with
  | nil => simp
  | cons a t ih =>
    rw [List.filterMap_cons]
    rcases List.nodup_cons.mp hl with ⟨hna, hnt⟩
    cases hfa : f a with
    | none => exact ih hnt (fun x hx x' hx' b h1 h2 =>
        hinj x (by simp [hx]) x' (by simp [hx']) b h1 h2)
    | some b =>
      rw [List.nodup_cons]
      refine ⟨?_, ih hnt (fun x hx x' hx' c h1 h2 =>
        hinj x (by simp [hx]) x' (by simp [hx']) c h1 h2)⟩
      intro hmem
      obtain ⟨a', ha', hfa'⟩ := List.mem_filterMap.mp hmem
      exact hna (hinj a (by simp) a' (by simp [ha']) b hfa hfa' ▸ ha')

/-- The declaration loop of `NyanCircuit.__init__` in closed form: one
declaration per used model whose bare id is a schematic group other than
the top, in used-model order. -/
theorem subcktDecls_eq (name : String) (schem : List (String × List (String × Doc)))
    (models : Models) (docs : List (String × Doc)) (used : List String)
    (hdocs : dlookup schem name = some docs)
    (hused : usedModels docs models = .ok used) :
    subcktDecls name schem models = .ok (used.filterMap (fun k =>
        if pyslice7 k ≠ name ∧ (dlookup schem (pyslice7 k)).isSome
        then some (pyslice7 k) else none)) := by
  unfold subcktDecls
  simp only [hdocs, hused]
  rw [decl_fold name schem models used []
    (fun k hk => (usedModels_spec docs models used hused).2 k hk)]
  simp

/-- C4 (amended): a schematic sub-circuit model instantiated from the
top-level group is declared exactly once (the declaration list is
duplicate-free and contains every used schematic model other than the top
itself), and a model that is not instantiated from the top-level group -
in particular a model never instantiated at all - is never declared.
Models instantiated only inside sub-circuit bodies are not in the
top-level `used_models` set and hence are not declared. -/
theorem c4_subckt_declared_once (name : String)
    (schem : List (String × List (String × Doc))) (models : Models)
    (docs : List (String × Doc)) (used decls : List String)
    (hdocs : dlookup schem name = some docs)
    (hused : usedModels docs models = .ok used)
    (hdecls : subcktDecls name schem models = .ok decls) :
    decls.Nodup ∧
    (∀ m, m ∈ decls → ("models:" ++ m) ∈ used ∧ m ≠ name ∧ (dlookup schem m).isSome) ∧
    (∀ m, ("models:" ++ m) ∈ used → m ≠ name → (dlookup schem m).isSome → m ∈ decls) := by
  have heq := subcktDecls_eq name schem models docs used hdocs hused
  rw [hdecls] at heq
  have hd := Except.ok.inj heq
  obtain ⟨hnd, hP⟩ := usedModels_spec docs models used hused
  subst hd
  refine ⟨?_, ?_, ?_⟩
  · refine filterMap_nodup_on used _ hnd ?_
    intro a ha a' ha' b h1 h2
    obtain ⟨⟨ba, hba⟩, _⟩ := hP a ha
    obtain ⟨⟨ba', hba'⟩, _⟩ := hP a' ha'
    subst hba; subst hba'
    rw [pyslice7_models] at h1 h2
    split at h1
    · split at h2
      · cases Option.some.inj h1; cases Option.some.inj h2; rfl
      · exact Option.noConfusion h2
    · exact Option.noConfusion h1
  · intro m hm
    obtain ⟨k, hk, hfk⟩ := List.mem_filterMap.mp hm
    obtain ⟨⟨b, hb⟩, _⟩ := hP k hk
    subst hb
    rw [pyslice7_models] at hfk
    split at hfk
    · cases Option.some.inj hfk
      rename_i hc
      exact ⟨hk, hc.1, hc.2⟩
    · exact Option.noConfusion hfk
  · intro m hmem hname hsch
    refine List.mem_filterMap.mpr ⟨"models:" ++ m, hmem, ?_⟩
    rw [pyslice7_models]
    rw [if_pos ⟨hname, hsch⟩]

/-- Witness for C4's amended theorem on the concrete hierarchy `c4schem`. -/
theorem c4_subckt_declared_once_witness :
    (dlookup c4schem "top" = some ((dlookup c4schem "top").getD []) ∧
     usedModels ((dlookup c4schem "top").getD []) c4models
        = .ok ["models:S2", "models:S1"] ∧
     subcktDecls "top" c4schem c4models = .ok ["S2", "S1"]) ∧
    ((["S2", "S1"] : List String).Nodup ∧
     (∀ m, m ∈ ["S2", "S1"] →
        ("models:" ++ m) ∈ ["models:S2", "models:S1"] ∧ m ≠ "top" ∧
        (dlookup c4schem m).isSome) ∧
     (∀ m, ("models:" ++ m) ∈ ["models:S2", "models:S1"] → m ≠ "top" →
        (dlookup c4schem m).isSome → m ∈ ["S2", "S1"])) :=
  ⟨⟨by decide, by decide, by decide⟩,
   c4_subckt_declared_once "top" c4schem c4models ((dlookup c4schem "top").getD [])
     ["models:S2", "models:S1"] ["S2", "S1"] (by decide) (by decide) (by decide)⟩

/-- Counterexample for C4 as stated: in `c4schem` the schematic model M is
instantiated from the bodies of both S1 and S2 (two different parent
groups) and is present in the library and the full schematic, yet the
emitted declaration list for the whole schematic is just [S2, S1]: M is
declared zero times, not once, because `NyanSubCircuit` does not propagate
its own `used_models` to the top-level declaration loop. -/
theorem c4_counterexample :
    subcktDecls "top" c4schem c4models = .ok ["S2", "S1"] ∧
    usedModels ((dlookup c4schem "S1").getD []) c4models = .ok ["models:M"] ∧
    usedModels ((dlookup c4schem "S2").getD []) c4models = .ok ["models:M"] ∧
    (dlookup c4models "models:M").isSome ∧
    (dlookup c4schem "M").isSome ∧
    ("M" : String) ∉ (["S2", "S1"] : List String) := by
  refine ⟨by decide, by decide, by decide, by decide, by decide, by decide⟩

theorem bfsInv_step1 (models : Models) (st : HierState) (rest : List Doc)
    (key : String) (hseen : key ∉ st.seen) (hinv : bfsInv models st) :
    bfsInv models { st with queue := rest, seen := key :: st.seen, inspected := st.inspected ++ [key] } := by
  obtain ⟨hf, hi, hfc, hiff⟩ := hinv
  have hkins : key ∉ st.inspected := fun hc => hseen ((hiff key).mp hc)
  refine ⟨hf, by simp [List.nodup_append, hi, hkins], ?_, ?_⟩
  · intro g hg
    obtain ⟨hg1, hg2⟩ := hfc g hg
    exact ⟨List.mem_cons_of_mem _ hg1, hg2⟩
  · intro k
    rw [List.mem_append, List.mem_singleton, List.mem_cons, hiff k, or_comm]

theorem bfsInv_step2 (models : Models) (st : HierState) (rest : List Doc)
    (bare : String) (mdef : Model) (hseen : ("models:" ++ bare) ∉ st.seen)
    (hdl : dlookup models ("models:" ++ bare) = some mdef)
    (hfalsy : templatesFalsy mdef.templates) (hinv : bfsInv models st) :
    bfsInv models { st with queue := rest, seen := ("models:" ++ bare) :: st.seen, inspected := st.inspected ++ ["models:" ++ bare], fetched := st.fetched ++ [bare] } := by
  have h1 := bfsInv_step1 models st rest ("models:" ++ bare) hseen hinv
  obtain ⟨hf1, hi1, hfc1, hiff1⟩ := h1
  have hbns : bare ∉ st.fetched := fun hc => hseen (hinv.2.2.1 bare hc).1
  refine ⟨by simp [List.nodup_append, hf1, hbns], hi1, ?_, hiff1⟩
  intro g hg
  rcases List.mem_append.mp hg with hg | hg
  · exact hfc1 g hg
  · simp only [List.mem_singleton] at hg
    subst hg
    exact ⟨List.mem_cons_self _ _, ⟨mdef, hdl, hfalsy⟩⟩

theorem bfsLoop_inv (models : Models) (store : String → List (String × Doc)) :
    ∀ (fuel : ℕ) (st st' : HierState),
    bfsLoop models store fuel st = .ok st' → bfsInv models st → bfsInv models st' := by
  intro fuel
  induction fuel with
  | zero =>
    intro st st' h hinv
    simp only [bfsLoop] at h
    split at h
    · cases Except.ok.inj h; exact hinv
    · exact Except.noConfusion h
  | succ fuel ih =>
    intro st st' h hinv
    simp only [bfsLoop] at h
    cases hq : st.queue with
    | nil => simp only [hq] at h; cases Except.ok.inj h; exact hinv
    | cons dev rest =>
      simp only [hq] at h
      have hinv0 : bfsInv models { st with queue := rest } := hinv
      cases hm : dev.model with
      | none => simp only [hm] at h; exact ih _ st' h hinv0
      | some bare =>
        simp only [hm] at h
        by_cases hemp : bare.isEmpty
        · rw [if_pos hemp] at h; exact ih _ st' h hinv0
        · rw [if_neg hemp] at h
          cases hck : checkedModelKey (some bare) with
          | error e => simp only [hck] at h; exact Except.noConfusion h
          | ok o =>
            cases o with
            | none => simp only [hck] at h; exact ih _ st' h hinv0
            | some key =>
              obtain ⟨m0, hm0, hkey⟩ := checkedModelKey_ok_some (some bare) key hck
              cases Option.some.inj hm0
              subst hkey
              simp only [hck] at h
              by_cases hseen : ("models:" ++ bare) ∈ st.seen
              · rw [if_pos hseen] at h; exact ih _ st' h hinv0
              · rw [if_neg hseen] at h
                have hinv1 := bfsInv_step1 models { st with queue := rest } rest ("models:" ++ bare) hseen hinv0
                cases hdl : dlookup models ("models:" ++ bare) with
                | none => simp only [hdl] at h; exact ih _ st' h hinv1
                | some mdef =>
                  simp only [hdl] at h
                  by_cases hfalsy : templatesFalsy mdef.templates
                  · rw [if_pos hfalsy] at h
                    split at h
                    · exact ih _ st' h hinv1
                    · have hinv2 := bfsInv_step2 models { st with queue := rest } rest bare mdef hseen hdl hfalsy hinv0
                      split at h
                      · exact ih _ st' h hinv2
                      · exact ih _ st' h hinv2
                  · rw [if_neg hfalsy] at h; exact ih _ st' h hinv1

/-- C8 (amended): during hierarchy resolution each model key passes the
seen-set guard at most once and each sub-circuit body group is fetched at
most once, even under diamond-shaped reuse; and only models whose
`templates` entry is falsy - absent, null or an empty mapping - have their
body group fetched.  (The claim's "only models without a templates entry"
is too strong: a present-but-empty entry is also fetched.) -/
theorem c8_hierarchy_fetch_once (models : Models)
    (store : String → List (String × Doc)) (name : String) (fuel : ℕ)
    (st' : HierState) (h : get_all_schem_docs models store name fuel = .ok st') :
    st'.inspected.Nodup ∧ st'.fetched.Nodup ∧
    (∀ g ∈ st'.fetched, ∃ m, dlookup models ("models:" ++ g) = some m ∧
      templatesFalsy m.templates) := by
  unfold get_all_schem_docs at h
  dsimp only at h
  split at h
  · cases Except.ok.inj h
    exact ⟨by simp, by simp, by simp⟩
  · have hres := bfsLoop_inv models store fuel _ st' h
      ⟨by simp, by simp, by simp, by simp⟩
    obtain ⟨h1, h2, h3, h4⟩ := hres
    exact ⟨h2, h1, fun g hg => (h3 g hg).2⟩

/-- Witness for C8's amended theorem on the concrete store `c8store`. -/
theorem c8_hierarchy_fetch_once_witness :
    (get_all_schem_docs c8models c8store "top" 10 =
      .ok { groups := [("top", c8store "top"), ("M", c8store "M")],
            queue := [], seen := ["models:M"], fetched := ["M"],
            inspected := ["models:M"] }) ∧
    ((["models:M"] : List String).Nodup ∧ (["M"] : List String).Nodup ∧
     (∀ g ∈ (["M"] : List String), ∃ m, dlookup c8models ("models:" ++ g) = some m ∧
        templatesFalsy m.templates)) :=
  ⟨by decide,
   c8_hierarchy_fetch_once c8models c8store "top" 10
     { groups := [("top", c8store "top"), ("M", c8store "M")],
       queue := [], seen := ["models:M"], fetched := ["M"],
       inspected := ["models:M"] } (by decide)⟩

/-- Counterexample for C8 as stated: model M carries a `templates` entry
(an empty mapping, `templates: {}`), yet its body group is fetched and
enqueued, because the code tests Python truthiness of the entry rather
than its presence. -/
theorem c8_counterexample :
    get_all_schem_docs c8models c8store "top" 10 =
      .ok { groups := [("top", c8store "top"), ("M", c8store "M")],
            queue := [], seen := ["models:M"], fetched := ["M"],
            inspected := ["models:M"] } ∧
    dlookup c8models "models:M"
      = some { name := "M", ports := { left := ["A"] }, templates := some [] } ∧
    (some ([] : List (String × List Template)) : Option (List (String × List Template))) ≠ none ∧
    ("M" : String) ∈ (["M"] : List String) := by
  refine ⟨by decide, by decide, by decide, by decide⟩

theorem dlookup_mem {α β : Type} [DecidableEq α] (l : List (α × β)) (k : α) (v : β)
    (h : dlookup l k = some v) : (k, v) ∈ l := by
  induction l with
  | nil => simp [dlookup] at h
  | cons e t ih =>
    rw [dlookup] at h
    split at h
    · rename_i hk
      cases Option.some.inj h
      subst hk
      exact Prod.mk.eta ▸ List.mem_cons_self e t
    · exact List.mem_cons_of_mem _ (ih h)

theorem mem_dlookup_of_nodup {α β : Type} [DecidableEq α] (l : List (α × β))
    (hnd : (l.map (fun e => e.1)).Nodup) (k : α) (v : β) (h : (k, v) ∈ l) :
    dlookup l k = some v := by
  induction l with
  | nil => simp at h
  | cons e t ih =>
    simp only [List.map_cons, List.nodup_cons] at hnd
    rcases List.mem_cons.mp h with h | h
    · subst h
      simp [dlookup]
    · rw [dlookup]
      split
      · rename_i hk
        exfalso
        exact hnd.1 (hk ▸ List.mem_map.mpr ⟨(k, v), h, rfl⟩)
      · exact ih hnd.2 h

theorem dpop_spec {α β : Type} [DecidableEq α] (l : List (α × β)) (k : α)
    (b : β) (l' : List (α × β)) (h : dpop l k = some (b, l')) :
    (k, b) ∈ l ∧ (∀ e ∈ l', e ∈ l) ∧ (∀ e ∈ l, e = (k, b) ∨ e ∈ l') ∧
    l.length = l'.length + 1 := by
  induction l generalizing l' with
  | nil => simp [dpop] at h
  | cons e t ih =>
    rw [dpop] at h
    split at h
    · rename_i hk
      have hb := (Prod.mk.inj (Option.some.inj h)).1
      have hl := (Prod.mk.inj (Option.some.inj h)).2
      subst hl
      subst hb
      subst hk
      refine ⟨Prod.mk.eta ▸ List.mem_cons_self e _, fun e' he' => List.mem_cons_of_mem _ he', ?_, by simp⟩
      intro e' he'
      rcases List.mem_cons.mp he' with he' | he'
      · left; rw [he']
      · right; exact he'
    · rename_i hk
      cases hd : dpop t k with
      | none => rw [hd] at h; exact Option.noConfusion h
      | some p =>
        obtain ⟨b', t'⟩ := p
        rw [hd] at h
        have hb := (Prod.mk.inj (Option.some.inj h)).1
        have hl := (Prod.mk.inj (Option.some.inj h)).2
        subst hb
        subst hl
        obtain ⟨h1, h2, h3, h4⟩ := ih t' hd
        refine ⟨List.mem_cons_of_mem _ h1, ?_, ?_, by simp [h4]⟩
        · intro e' he'
          rcases List.mem_cons.mp he' with he' | he'
          · exact he' ▸ List.mem_cons_self e t
          · exact List.mem_cons_of_mem _ (h2 e' he')
        · intro e' he'
          rcases List.mem_cons.mp he' with he' | he'
          · right; exact he' ▸ List.mem_cons_self e t'
          · rcases h3 e' he' with hc | hc
            · left; exact hc
            · right; exact List.mem_cons_of_mem _ hc

theorem dpop_entities {α : Type} [DecidableEq α] {β : Type} (l : List (α × List β))
    (k : α) (b : List β) (l' : List (α × List β)) (h : dpop l k = some (b, l')) :
    entities l = entities l' + b.length := by
  induction l generalizing l' with
  | nil => simp [dpop] at h
  | cons e t ih =>
    rw [dpop] at h
    split at h
    · have hb := (Prod.mk.inj (Option.some.inj h)).1
      have hl := (Prod.mk.inj (Option.some.inj h)).2
      subst hl
      subst hb
      simp [entities]
      omega
    · cases hd : dpop t k with
      | none => rw [hd] at h; exact Option.noConfusion h
      | some p =>
        obtain ⟨b', t'⟩ := p
        rw [hd] at h
        have hb := (Prod.mk.inj (Option.some.inj h)).1
        have hl := (Prod.mk.inj (Option.some.inj h)).2
        subst hb
        subst hl
        have := ih t' hd
        simp [entities] at this ⊢
        omega

theorem dpopitem_eq {α β : Type} (l : List (α × β)) (e : α × β) (l' : List (α × β))
    (h : dpopitem l = some (e, l')) : l = l' ++ [e] := by
  induction l generalizing e l' with
  | nil => simp [dpopitem] at h
  | cons x t ih =>
    cases t with
    | nil =>
      rw [dpopitem] at h
      have he := (Prod.mk.inj (Option.some.inj h)).1
      have hl := (Prod.mk.inj (Option.some.inj h)).2
      subst he
      subst hl
      rfl
    | cons y t' =>
      simp only [dpopitem] at h
      cases hd : dpopitem (y :: t') with
      | none => rw [hd] at h; exact Option.noConfusion h
      | some p =>
        obtain ⟨last, rest⟩ := p
        rw [hd] at h
        have he := (Prod.mk.inj (Option.some.inj h)).1
        have hl := (Prod.mk.inj (Option.some.inj h)).2
        subst he
        subst hl
        have htl := ih last rest hd
        rw [List.cons_append, ← htl]

theorem recorded_cons (k0 : String) (v0 : List (Option String)) (t : NetDevs)
    (k : String) (p : Option String) :
    recorded ((k0, v0) :: t) k p ↔ (k = k0 ∧ p ∈ v0) ∨ recorded t k p := by
  constructor
  · rintro ⟨ps, hmem, hp⟩
    rcases List.mem_cons.mp hmem with hmem | hmem
    · left
      have h1 := (Prod.mk.inj hmem).1
      have h2 := (Prod.mk.inj hmem).2
      exact ⟨h1, h2 ▸ hp⟩
    · right; exact ⟨ps, hmem, hp⟩
  · rintro (⟨hk, hp⟩ | ⟨ps, hmem, hp⟩)
    · exact ⟨v0, by rw [hk]; exact List.mem_cons_self _ _, hp⟩
    · exact ⟨ps, List.mem_cons_of_mem _ hmem, hp⟩

theorem recorded_ndAdd (nd : NetDevs) (k0 : String) (p0 : Option String)
    (k : String) (p : Option String) :
    recorded (ndAdd nd k0 p0) k p ↔ (k = k0 ∧ p = p0) ∨ recorded nd k p := by
  induction nd with
  | nil =>
    rw [ndAdd]
    rw [recorded_cons]
    simp [recorded]
  | cons e t ih =>
    obtain ⟨k', ps⟩ := e
    rw [ndAdd]
    split
    · rename_i hk
      subst hk
      rw [recorded_cons, recorded_cons]
      simp only [List.mem_append, List.mem_singleton]
      constructor
      · rintro (⟨hk, hp | hp⟩ | hr)
        · right; left; exact ⟨hk, hp⟩
        · left; exact ⟨hk, hp⟩
        · right; right; exact hr
      · rintro (⟨hk, hp⟩ | ⟨hk, hp⟩ | hr)
        · left; exact ⟨hk, Or.inr hp⟩
        · left; exact ⟨hk, Or.inl hp⟩
        · right; exact hr
    · rw [recorded_cons, recorded_cons, ih]
      tauto

theorem recorded_mergeInto (v : List (Option String)) (nd : NetDevs) (k0 : String)
    (k : String) (p : Option String) :
    recorded (mergeInto nd k0 v) k p ↔ (k = k0 ∧ p ∈ v) ∨ recorded nd k p := by
  induction v generalizing nd with
  | nil => simp [mergeInto]
  | cons p0 t ih =>
    simp only [mergeInto] at ih ⊢
    rw [List.foldl_cons, ih, recorded_ndAdd]
    simp only [List.mem_cons]
    tauto

theorem recorded_mergeAll (nd : NetDevs) (base : NetDevs)
    (k : String) (p : Option String) :
    recorded (mergeAll base nd) k p ↔ recorded base k p ∨ recorded nd k p := by
  induction nd generalizing base with
  | nil => simp [mergeAll, recorded]
  | cons e t ih =>
    obtain ⟨k0, v0⟩ := e
    simp only [mergeAll] at ih ⊢
    rw [List.foldl_cons, ih, recorded_mergeInto, recorded_cons]
    tauto

theorem recorded_recordDevs (devs : List (Option String × Doc)) (nd : NetDevs)
    (k : String) (p : Option String) :
    recorded (devs.foldl (fun nd pd => ndAdd nd pd.2.id pd.1) nd) k p ↔
      recorded nd k p ∨ ∃ d, (p, d) ∈ devs ∧ d.id = k := by
  induction devs generalizing nd with
  | nil => simp
  | cons pd t ih =>
    rw [List.foldl_cons, ih, recorded_ndAdd]
    constructor
    · rintro ((⟨hk, hp⟩ | h) | hex)
      · right
        exact ⟨pd.2, by rw [hp]; exact Prod.mk.eta ▸ List.mem_cons_self pd t, hk.symm⟩
      · left; exact h
      · right
        obtain ⟨d, hd, hid⟩ := hex
        exact ⟨d, List.mem_cons_of_mem _ hd, hid⟩
    · rintro (h | ⟨d, hd, hid⟩)
      · left; right; exact h
      · rcases List.mem_cons.mp hd with hd | hd
        · left; left
          exact ⟨by rw [← hid, (Prod.mk.inj hd).2], (Prod.mk.inj hd).1⟩
        · right; exact ⟨d, hd, hid⟩

theorem floodStep_nd (di : DI) (s : WI × List Doc × NetDevs) (lp : Coord) :
    (floodStep di s lp).2.2 =
      (diAt di lp).foldl (fun nd pd => ndAdd nd pd.2.id pd.1) s.2.2 := by
  simp only [floodStep, diAt]
  cases h : dlookup di lp with
  | none => simp
  | some devs => simp

theorem floodStep_pop (di : DI) (s : WI × List Doc × NetDevs) (lp : Coord)
    (bucket : List Doc) (wi' : WI) (h : dpop s.1 lp = some (bucket, wi')) :
    (floodStep di s lp).1 = wi' ∧ (floodStep di s lp).2.1 = s.2.1 ++ bucket := by
  simp [floodStep, h]

theorem floodStep_nopop (di : DI) (s : WI × List Doc × NetDevs) (lp : Coord)
    (h : dpop s.1 lp = none) :
    (floodStep di s lp).1 = s.1 ∧ (floodStep di s lp).2.1 = s.2.1 := by
  simp [floodStep, h]

theorem floodStep_measure (di : DI) (s : WI × List Doc × NetDevs) (lp : Coord) :
    entities (floodStep di s lp).1 + (floodStep di s lp).2.1.length =
      entities s.1 + s.2.1.length := by
  cases h : dpop s.1 lp with
  | none =>
    obtain ⟨h1, h2⟩ := floodStep_nopop di s lp h
    rw [h1, h2]
  | some p =>
    obtain ⟨bucket, wi'⟩ := p
    obtain ⟨h1, h2⟩ := floodStep_pop di s lp bucket wi' h
    rw [h1, h2]
    have := dpop_entities s.1 lp bucket wi' h
    simp [this]
    omega

theorem floodStep_queue_mono (di : DI) (s : WI × List Doc × NetDevs) (lp : Coord)
    (e : Doc) (he : e ∈ s.2.1) : e ∈ (floodStep di s lp).2.1 := by
  cases h : dpop s.1 lp with
  | none => rw [(floodStep_nopop di s lp h).2]; exact he
  | some p =>
    obtain ⟨bucket, wi'⟩ := p
    rw [(floodStep_pop di s lp bucket wi' h).2]
    exact List.mem_append_left _ he

theorem floodStep_pop_or_keep (di : DI) (s : WI × List Doc × NetDevs) (lp : Coord)
    (loc : Coord) (B : List Doc) (hmem : (loc, B) ∈ s.1) :
    (loc, B) ∈ (floodStep di s lp).1 ∨ ∀ e ∈ B, e ∈ (floodStep di s lp).2.1 := by
  cases h : dpop s.1 lp with
  | none => rw [(floodStep_nopop di s lp h).1]; left; exact hmem
  | some p =>
    obtain ⟨bucket, wi'⟩ := p
    obtain ⟨h1, h2⟩ := floodStep_pop di s lp bucket wi' h
    obtain ⟨_, _, hkeep, _⟩ := dpop_spec s.1 lp bucket wi' h
    rcases hkeep (loc, B) hmem with hc | hc
    · right
      intro e he
      rw [h2]
      refine List.mem_append_right _ ?_
      rw [← (Prod.mk.inj hc).2]
      exact he
    · left; rw [h1]; exact hc

theorem floodStep_wi_subset (di : DI) (s : WI × List Doc × NetDevs) (lp : Coord)
    (e : Coord × List Doc) (he : e ∈ (floodStep di s lp).1) : e ∈ s.1 := by
  cases h : dpop s.1 lp with
  | none => rw [(floodStep_nopop di s lp h).1] at he; exact he
  | some p =>
    obtain ⟨bucket, wi'⟩ := p
    rw [(floodStep_pop di s lp bucket wi' h).1] at he
    exact (dpop_spec s.1 lp bucket wi' h).2.1 e he

theorem floodStep_wi_length (di : DI) (s : WI × List Doc × NetDevs) (lp : Coord) :
    (floodStep di s lp).1.length ≤ s.1.length := by
  cases h : dpop s.1 lp with
  | none => rw [(floodStep_nopop di s lp h).1]
  | some p =>
    obtain ⟨bucket, wi'⟩ := p
    rw [(floodStep_pop di s lp bucket wi' h).1]
    have := (dpop_spec s.1 lp bucket wi' h).2.2.2
    omega

theorem floodFold_measure (di : DI) (lps : List Coord) :
    ∀ s : WI × List Doc × NetDevs,
    entities (lps.foldl (floodStep di) s).1 + (lps.foldl (floodStep di) s).2.1.length =
      entities s.1 + s.2.1.length := by
  induction lps with
  | nil => intro s; rfl
  | cons lp t ih =>
    intro s
    rw [List.foldl_cons, ih (floodStep di s lp), floodStep_measure]

theorem floodFold_nd (di : DI) (lps : List Coord) :
    ∀ (s : WI × List Doc × NetDevs) (k : String) (p : Option String),
    recorded (lps.foldl (floodStep di) s).2.2 k p ↔
      recorded s.2.2 k p ∨ ∃ lp ∈ lps, ∃ d, (p, d) ∈ diAt di lp ∧ d.id = k := by
  induction lps with
  | nil => intro s k p; simp
  | cons lp t ih =>
    intro s k p
    rw [List.foldl_cons, ih (floodStep di s lp)]
    have hnd : recorded (floodStep di s lp).2.2 k p ↔
        recorded s.2.2 k p ∨ ∃ d, (p, d) ∈ diAt di lp ∧ d.id = k := by
      rw [floodStep_nd, recorded_recordDevs]
    rw [hnd]
    constructor
    · rintro ((h | ⟨d, hd, hid⟩) | ⟨lp', hlp', hd⟩)
      · left; exact h
      · right; exact ⟨lp, List.mem_cons_self _ _, d, hd, hid⟩
      · right; exact ⟨lp', List.mem_cons_of_mem _ hlp', hd⟩
    · rintro (h | ⟨lp', hlp', hd⟩)
      · left; left; exact h
      · rcases List.mem_cons.mp hlp' with he | he
        · left; right; exact he ▸ hd
        · right; exact ⟨lp', he, hd⟩

theorem floodFold_queue_mono (di : DI) (lps : List Coord) :
    ∀ (s : WI × List Doc × NetDevs) (e : Doc), e ∈ s.2.1 →
    e ∈ (lps.foldl (floodStep di) s).2.1 := by
  induction lps with
  | nil => intro s e he; exact he
  | cons lp t ih =>
    intro s e he
    rw [List.foldl_cons]
    exact ih _ e (floodStep_queue_mono di s lp e he)

theorem floodFold_pop_or_keep (di : DI) (lps : List Coord) :
    ∀ (s : WI × List Doc × NetDevs) (loc : Coord) (B : List Doc), (loc, B) ∈ s.1 →
    (loc, B) ∈ (lps.foldl (floodStep di) s).1 ∨
      ∀ e ∈ B, e ∈ (lps.foldl (floodStep di) s).2.1 := by
  induction lps with
  | nil => intro s loc B h; left; exact h
  | cons lp t ih =>
    intro s loc B h
    rw [List.foldl_cons]
    rcases floodStep_pop_or_keep di s lp loc B h with hk | hq
    · exact ih _ loc B hk
    · right
      intro e he
      exact floodFold_queue_mono di t _ e (hq e he)

theorem floodFold_wi_subset (di : DI) (lps : List Coord) :
    ∀ (s : WI × List Doc × NetDevs) (e : Coord × List Doc),
    e ∈ (lps.foldl (floodStep di) s).1 → e ∈ s.1 := by
  induction lps with
  | nil => intro s e he; exact he
  | cons lp t ih =>
    intro s e he
    rw [List.foldl_cons] at he
    exact floodStep_wi_subset di s lp e (ih _ e he)

theorem floodFold_wi_length (di : DI) (lps : List Coord) :
    ∀ s : WI × List Doc × NetDevs,
    (lps.foldl (floodStep di) s).1.length ≤ s.1.length := by
  induction lps with
  | nil => intro s; exact Nat.le_refl _
  | cons lp t ih =>
    intro s
    rw [List.foldl_cons]
    exact Nat.le_trans (ih _) (floodStep_wi_length di s lp)

theorem getports_wire (d : Doc) (models : Models) (h : d.type = "wire") :
    getports d models = .ok (wirePortsList d) := by
  simp [getports, h, wirePortsList]

theorem wireLocs_stub (loc : Coord) : wireLocs (stub loc) = [loc] := by
  simp [wireLocs, wirePortsList, stub, insertD]

theorem processNet_step_wire (di : DI) (models : Models) (fuel : ℕ) (wi : WI)
    (d : Doc) (rest : List Doc) (nm : Option String) (nd : NetDevs)
    (h : d.type = "wire") :
    processNet di models (fuel + 1) wi (d :: rest) nm nd =
      processNet di models fuel
        ((wireLocs d).foldl (floodStep di) (wi, rest, nd)).1
        ((wireLocs d).foldl (floodStep di) (wi, rest, nd)).2.1
        (if nm = none ∧ d.name ≠ none then d.name else nm)
        ((wireLocs d).foldl (floodStep di) (wi, rest, nd)).2.2 := by
  rw [processNet, if_pos h, getports_wire d models h]
  rfl

theorem processNet_step_port (di : DI) (models : Models) (fuel : ℕ) (wi : WI)
    (d : Doc) (rest : List Doc) (nm : Option String) (nd : NetDevs)
    (h1 : d.type ≠ "wire") (h2 : d.type = "port") :
    processNet di models (fuel + 1) wi (d :: rest) nm nd =
      processNet di models fuel wi rest d.name nd := by
  rw [processNet, if_neg h1, if_pos h2]

theorem processNet_step_bad (di : DI) (models : Models) (fuel : ℕ) (wi : WI)
    (d : Doc) (rest : List Doc) (nm : Option String) (nd : NetDevs)
    (h1 : d.type ≠ "wire") (h2 : d.type ≠ "port") :
    processNet di models (fuel + 1) wi (d :: rest) nm nd =
      .error (.valueError d.type) := by
  rw [processNet, if_neg h1, if_neg h2]

theorem processNet_nd_mono (di : DI) (models : Models) :
    ∀ (fuel : ℕ) (wi : WI) (q : List Doc) (nm : Option String) (nd : NetDevs)
      (wi' : WI) (nm' : Option String) (nd' : NetDevs),
    processNet di models fuel wi q nm nd = .ok (wi', nm', nd') →
    ∀ k p, recorded nd k p → recorded nd' k p := by
  intro fuel
  induction fuel with
  | zero =>
    intro wi q nm nd wi' nm' nd' h k p hr
    cases q with
    | nil =>
      have h3 : nd = nd' := congrArg (fun t => t.2.2) (Except.ok.inj h)
      exact h3 ▸ hr
    | cons d rest => exact Except.noConfusion h
  | succ fuel ih =>
    intro wi q nm nd wi' nm' nd' h k p hr
    cases q with
    | nil =>
      have h3 : nd = nd' := congrArg (fun t => t.2.2) (Except.ok.inj h)
      exact h3 ▸ hr
    | cons d rest =>
      by_cases hw : d.type = "wire"
      · rw [processNet_step_wire di models fuel wi d rest nm nd hw] at h
        refine ih _ _ _ _ _ _ _ h k p ?_
        rw [floodFold_nd]
        left
        exact hr
      · by_cases hp : d.type = "port"
        · rw [processNet_step_port di models fuel wi d rest nm nd hw hp] at h
          exact ih _ _ _ _ _ _ _ h k p hr
        · rw [processNet_step_bad di models fuel wi d rest nm nd hw hp] at h
          exact Except.noConfusion h

theorem processNet_records (di : DI) (models : Models) :
    ∀ (fuel : ℕ) (wi : WI) (q : List Doc) (nm : Option String) (nd : NetDevs)
      (wi' : WI) (nm' : Option String) (nd' : NetDevs),
    processNet di models fuel wi q nm nd = .ok (wi', nm', nd') →
    ∀ e ∈ q, e.type = "wire" → ∀ lp ∈ wireLocs e, ∀ pd ∈ diAt di lp,
      recorded nd' pd.2.id pd.1 := by
  intro fuel
  induction fuel with
  | zero =>
    intro wi q nm nd wi' nm' nd' h e he
    cases q with
    | nil => simp at he
    | cons d rest => exact Except.noConfusion h
  | succ fuel ih =>
    intro wi q nm nd wi' nm' nd' h e he hwt lp hlp pd hpd
    cases q with
    | nil => simp at he
    | cons d rest =>
      by_cases hw : d.type = "wire"
      · rw [processNet_step_wire di models fuel wi d rest nm nd hw] at h
        rcases List.mem_cons.mp he with he | he
        · subst he
          refine processNet_nd_mono di models fuel _ _ _ _ _ _ _ h _ _ ?_
          rw [floodFold_nd]
          right
          exact ⟨lp, hlp, pd.2, Prod.mk.eta ▸ hpd, rfl⟩
        · refine ih _ _ _ _ _ _ _ h e ?_ hwt lp hlp pd hpd
          exact floodFold_queue_mono di (wireLocs d) (wi, rest, nd) e he
      · by_cases hp : d.type = "port"
        · rw [processNet_step_port di models fuel wi d rest nm nd hw hp] at h
          rcases List.mem_cons.mp he with he | he
          · subst he; exact absurd hwt hw
          · exact ih _ _ _ _ _ _ _ h e he hwt lp hlp pd hpd
        · rw [processNet_step_bad di models fuel wi d rest nm nd hw hp] at h
          exact Except.noConfusion h

theorem processNet_wi_subset (di : DI) (models : Models) :
    ∀ (fuel : ℕ) (wi : WI) (q : List Doc) (nm : Option String) (nd : NetDevs)
      (wi' : WI) (nm' : Option String) (nd' : NetDevs),
    processNet di models fuel wi q nm nd = .ok (wi', nm', nd') →
    ∀ e ∈ wi', e ∈ wi := by
  intro fuel
  induction fuel with
  | zero =>
    intro wi q nm nd wi' nm' nd' h e he
    cases q with
    | nil =>
      have h1 : wi = wi' := congrArg (fun t => t.1) (Except.ok.inj h)
      exact h1 ▸ he
    | cons d rest => exact Except.noConfusion h
  | succ fuel ih =>
    intro wi q nm nd wi' nm' nd' h e he
    cases q with
    | nil =>
      have h1 : wi = wi' := congrArg (fun t => t.1) (Except.ok.inj h)
      exact h1 ▸ he
    | cons d rest =>
      by_cases hw : d.type = "wire"
      · rw [processNet_step_wire di models fuel wi d rest nm nd hw] at h
        exact floodFold_wi_subset di (wireLocs d) (wi, rest, nd) e
          (ih _ _ _ _ _ _ _ h e he)
      · by_cases hp : d.type = "port"
        · rw [processNet_step_port di models fuel wi d rest nm nd hw hp] at h
          exact ih _ _ _ _ _ _ _ h e he
        · rw [processNet_step_bad di models fuel wi d rest nm nd hw hp] at h
          exact Except.noConfusion h

theorem processNet_keep (di : DI) (models : Models) :
    ∀ (fuel : ℕ) (wi : WI) (q : List Doc) (nm : Option String) (nd : NetDevs)
      (wi' : WI) (nm' : Option String) (nd' : NetDevs),
    processNet di models fuel wi q nm nd = .ok (wi', nm', nd') →
    ∀ loc B, (loc, B) ∈ wi → stub loc ∈ B →
    ((loc, B) ∈ wi' ∨ ∀ pd ∈ diAt di loc, recorded nd' pd.2.id pd.1) := by
  intro fuel
  induction fuel with
  | zero =>
    intro wi q nm nd wi' nm' nd' h loc B hmem hstub
    cases q with
    | nil =>
      have h1 : wi = wi' := congrArg (fun t => t.1) (Except.ok.inj h)
      exact Or.inl (h1 ▸ hmem)
    | cons d rest => exact Except.noConfusion h
  | succ fuel ih =>
    intro wi q nm nd wi' nm' nd' h loc B hmem hstub
    cases q with
    | nil =>
      have h1 : wi = wi' := congrArg (fun t => t.1) (Except.ok.inj h)
      exact Or.inl (h1 ▸ hmem)
    | cons d rest =>
      by_cases hw : d.type = "wire"
      · rw [processNet_step_wire di models fuel wi d rest nm nd hw] at h
        rcases floodFold_pop_or_keep di (wireLocs d) (wi, rest, nd) loc B hmem with hk | hq
        · exact ih _ _ _ _ _ _ _ h loc B hk hstub
        · right
          intro pd hpd
          refine processNet_records di models fuel _ _ _ _ _ _ _ h (stub loc)
            (hq (stub loc) hstub) rfl loc ?_ pd hpd
          rw [wireLocs_stub]
          exact List.mem_singleton.mpr rfl
      · by_cases hp : d.type = "port"
        · rw [processNet_step_port di models fuel wi d rest nm nd hw hp] at h
          exact ih _ _ _ _ _ _ _ h loc B hmem hstub
        · rw [processNet_step_bad di models fuel wi d rest nm nd hw hp] at h
          exact Except.noConfusion h

theorem processNet_pairIff (di : DI) (models : Models) (k1 k2 : String)
    (p1 p2 : Option String) (loc : Coord)
    (H1 : ∀ lp d, (p1, d) ∈ diAt di lp → d.id = k1 → lp = loc)
    (H2 : ∀ lp d, (p2, d) ∈ diAt di lp → d.id = k2 → lp = loc)
    (Hb1 : ∃ d, (p1, d) ∈ diAt di loc ∧ d.id = k1)
    (Hb2 : ∃ d, (p2, d) ∈ diAt di loc ∧ d.id = k2) :
    ∀ (fuel : ℕ) (wi : WI) (q : List Doc) (nm : Option String) (nd : NetDevs)
      (wi' : WI) (nm' : Option String) (nd' : NetDevs),
    processNet di models fuel wi q nm nd = .ok (wi', nm', nd') →
    pairIff k1 p1 k2 p2 nd → pairIff k1 p1 k2 p2 nd' := by
  intro fuel
  induction fuel with
  | zero =>
    intro wi q nm nd wi' nm' nd' h hpi
    cases q with
    | nil =>
      have h3 : nd = nd' := congrArg (fun t => t.2.2) (Except.ok.inj h)
      exact h3 ▸ hpi
    | cons d rest => exact Except.noConfusion h
  | succ fuel ih =>
    intro wi q nm nd wi' nm' nd' h hpi
    cases q with
    | nil =>
      have h3 : nd = nd' := congrArg (fun t => t.2.2) (Except.ok.inj h)
      exact h3 ▸ hpi
    | cons d rest =>
      by_cases hw : d.type = "wire"
      · rw [processNet_step_wire di models fuel wi d rest nm nd hw] at h
        refine ih _ _ _ _ _ _ _ h ?_
        rw [pairIff] at hpi ⊢
        rw [floodFold_nd di (wireLocs d) (wi, rest, nd) k1 p1,
            floodFold_nd di (wireLocs d) (wi, rest, nd) k2 p2]
        have e1 : (∃ lp ∈ wireLocs d, ∃ dd, (p1, dd) ∈ diAt di lp ∧ dd.id = k1) ↔
            loc ∈ wireLocs d := by
          constructor
          · rintro ⟨lp, hlp, dd, hdd, hid⟩
            exact (H1 lp dd hdd hid) ▸ hlp
          · intro hl
            obtain ⟨dd, hdd, hid⟩ := Hb1
            exact ⟨loc, hl, dd, hdd, hid⟩
        have e2 : (∃ lp ∈ wireLocs d, ∃ dd, (p2, dd) ∈ diAt di lp ∧ dd.id = k2) ↔
            loc ∈ wireLocs d := by
          constructor
          · rintro ⟨lp, hlp, dd, hdd, hid⟩
            exact (H2 lp dd hdd hid) ▸ hlp
          · intro hl
            obtain ⟨dd, hdd, hid⟩ := Hb2
            exact ⟨loc, hl, dd, hdd, hid⟩
        rw [e1, e2, hpi]
      · by_cases hp : d.type = "port"
        · rw [processNet_step_port di models fuel wi d rest nm nd hw hp] at h
          exact ih _ _ _ _ _ _ _ h hpi
        · rw [processNet_step_bad di models fuel wi d rest nm nd hw hp] at h
          exact Except.noConfusion h

theorem nlExtend_dlookup (nl : NL) (name k : String) (v : List (Option String))
    (net : String) :
    dlookup (nlExtend nl name k v) net =
      if net = name then some (mergeInto ((dlookup nl name).getD []) k v)
      else dlookup nl net := by
  induction nl with
  | nil =>
    rw [nlExtend]
    by_cases hn : net = name
    · subst hn; simp [dlookup]
    · simp [dlookup, hn, Ne.symm hn]
  | cons e t ih =>
    obtain ⟨n, nd⟩ := e
    rw [nlExtend]
    by_cases hn : n = name
    · subst hn
      rw [if_pos rfl]
      by_cases hnet : n = net
      · subst hnet
        simp [dlookup]
      · simp [dlookup, hnet, Ne.symm hnet]
    · rw [if_neg hn]
      by_cases hnet : n = net
      · subst hnet
        simp [dlookup, hn, Ne.symm hn]
      · simp [dlookup, hnet, hn, ih]

theorem nlExtend_keys (nl : NL) (name k : String) (v : List (Option String)) :
    (nlExtend nl name k v).map (fun e => e.1) =
      if name ∈ nl.map (fun e => e.1) then nl.map (fun e => e.1)
      else nl.map (fun e => e.1) ++ [name] := by
  induction nl with
  | nil => simp [nlExtend]
  | cons e t ih =>
    obtain ⟨n, nd⟩ := e
    rw [nlExtend]
    by_cases hn : n = name
    · subst hn
      rw [if_pos rfl]
      simp
    · rw [if_neg hn]
      simp only [List.map_cons]
      rw [ih]
      by_cases hmem : name ∈ t.map (fun e => e.1)
      · rw [if_pos hmem, if_pos (List.mem_cons_of_mem _ hmem)]
      · rw [if_neg hmem, if_neg ?hno, List.cons_append]
        case hno =>
          intro hc
          rcases List.mem_cons.mp hc with hc | hc
          · exact hn hc.symm
          · exact hmem hc

theorem ndMerge_dlookup_ne (nd : NetDevs) :
    ∀ (nl : NL) (name net : String), net ≠ name →
    dlookup (ndMerge nl name nd) net = dlookup nl net := by
  induction nd with
  | nil => intro nl name net _; rfl
  | cons kv t ih =>
    intro nl name net hne
    rw [ndMerge, List.foldl_cons]
    have := ih (nlExtend nl name kv.1 kv.2) name net hne
    rw [ndMerge] at this
    rw [this, nlExtend_dlookup, if_neg hne]

theorem ndMerge_dlookup_name (nd : NetDevs) :
    ∀ (nl : NL) (name : String), nd ≠ [] →
    dlookup (ndMerge nl name nd) name =
      some (mergeAll ((dlookup nl name).getD []) nd) := by
  induction nd with
  | nil => intro nl name h; exact absurd rfl h
  | cons kv t ih =>
    intro nl name _
    rw [ndMerge, List.foldl_cons]
    cases t with
    | nil =>
      show dlookup (nlExtend nl name kv.1 kv.2) name = _
      rw [nlExtend_dlookup, if_pos rfl]
      rfl
    | cons kv' t' =>
      have := ih (nlExtend nl name kv.1 kv.2) name (by simp)
      rw [ndMerge] at this
      rw [this, nlExtend_dlookup, if_pos rfl]
      rfl

theorem ndMerge_keys_nodup (nd : NetDevs) :
    ∀ (nl : NL) (name : String), (nl.map (fun e => e.1)).Nodup →
    ((ndMerge nl name nd).map (fun e => e.1)).Nodup := by
  induction nd with
  | nil => intro nl name h; exact h
  | cons kv t ih =>
    intro nl name h
    rw [ndMerge, List.foldl_cons]
    have hext : ((nlExtend nl name kv.1 kv.2).map (fun e => e.1)).Nodup := by
      rw [nlExtend_keys]
      split
      · exact h
      · rename_i hni
        simp [List.nodup_append, h, hni]
    exact ih _ name hext

theorem recorded_ne_nil (nd : NetDevs) (k : String) (p : Option String)
    (h : recorded nd k p) : nd ≠ [] := by
  obtain ⟨ps, hmem, _⟩ := h
  intro hc
  rw [hc] at hmem
  simp at hmem

theorem nlRecorded_merge_mono (nl : NL) (name : String) (nd : NetDevs)
    (hnd : (nl.map (fun e => e.1)).Nodup) (k : String) (p : Option String)
    (h : nlRecorded nl k p) : nlRecorded (ndMerge nl name nd) k p := by
  obtain ⟨e, hmem, hrec⟩ := h
  obtain ⟨net, devs⟩ := e
  have hdl : dlookup nl net = some devs := mem_dlookup_of_nodup nl hnd net devs hmem
  by_cases hne : net = name
  · subst hne
    cases hd : nd with
    | nil =>
      refine ⟨(net, devs), ?_, hrec⟩
      rw [ndMerge]
      simpa using hmem
    | cons kv t =>
      refine ⟨(net, mergeAll devs (kv :: t)), ?_, ?_⟩
      · apply dlookup_mem
        rw [← hd, ndMerge_dlookup_name nd nl net (hd ▸ by simp), hdl]
        rw [hd]
        rfl
      · rw [recorded_mergeAll]
        left
        exact hrec
  · refine ⟨(net, devs), ?_, hrec⟩
    apply dlookup_mem
    rw [ndMerge_dlookup_ne nd nl name net hne]
    exact hdl

theorem nlRecorded_merge_record (nl : NL) (name : String) (nd : NetDevs)
    (k : String) (p : Option String) (h : recorded nd k p) :
    nlRecorded (ndMerge nl name nd) k p := by
  refine ⟨(name, mergeAll ((dlookup nl name).getD []) nd), ?_, ?_⟩
  · exact dlookup_mem _ _ _ (ndMerge_dlookup_name nd nl name (recorded_ne_nil nd k p h))
  · rw [recorded_mergeAll]
    right
    exact h

theorem pairIff_merge (nl : NL) (name : String) (nd : NetDevs)
    (k1 k2 : String) (p1 p2 : Option String)
    (hinv : ∀ net devs, dlookup nl net = some devs → pairIff k1 p1 k2 p2 devs)
    (hnd : pairIff k1 p1 k2 p2 nd) :
    ∀ net devs, dlookup (ndMerge nl name nd) net = some devs →
      pairIff k1 p1 k2 p2 devs := by
  intro net devs hdl
  by_cases hne : net = name
  · subst hne
    cases hd : nd with
    | nil =>
      rw [hd, ndMerge] at hdl
      exact hinv net devs (by simpa using hdl)
    | cons kv t =>
      rw [ndMerge_dlookup_name nd nl net (hd ▸ by simp)] at hdl
      cases Option.some.inj hdl
      rw [pairIff, recorded_mergeAll, recorded_mergeAll]
      have hbase : pairIff k1 p1 k2 p2 ((dlookup nl net).getD []) := by
        cases hb : dlookup nl net with
        | none => simp [pairIff, recorded]
        | some devs0 => exact hinv net devs0 hb
      rw [pairIff] at hbase hnd
      rw [hbase, hnd]
  · rw [ndMerge_dlookup_ne nd nl name net hne] at hdl
    exact hinv net devs hdl

theorem dpopitem_none {α β : Type} (l : List (α × β)) (h : dpopitem l = none) :
    l = [] := by
  cases l with
  | nil => rfl
  | cons x t =>
    cases t with
    | nil => simp [dpopitem] at h
    | cons y t' =>
      simp only [dpopitem] at h
      cases hd : dpopitem (y :: t') with
      | none =>
        have := dpopitem_none (y :: t') hd
        exact List.noConfusion this
      | some p => rw [hd] at h; exact Option.noConfusion h

theorem netlistLoop_complete (di : DI) (models : Models) :
    ∀ (fuel : ℕ) (wi : WI) (netnum : ℕ) (nl nlfin : NL),
    netlistLoop di models fuel wi netnum nl = .ok nlfin →
    (nl.map (fun e => e.1)).Nodup →
    (∀ loc, diAt di loc ≠ [] →
      ((∃ B, (loc, B) ∈ wi ∧ stub loc ∈ B) ∨
       (∀ pd ∈ diAt di loc, nlRecorded nl pd.2.id pd.1))) →
    ∀ loc, diAt di loc ≠ [] → ∀ pd ∈ diAt di loc, nlRecorded nlfin pd.2.id pd.1 := by
  intro fuel
  induction fuel with
  | zero =>
    intro wi netnum nl nlfin h hnd hinv loc hne pd hpd
    cases wi with
    | nil =>
      cases Except.ok.inj h
      rcases hinv loc hne with ⟨B, hmem, _⟩ | hrec
      · simp at hmem
      · exact hrec pd hpd
    | cons x t => exact Except.noConfusion h
  | succ fuel ih =>
    intro wi netnum nl nlfin h hnd hinv loc hne pd hpd
    cases wi with
    | nil =>
      cases Except.ok.inj h
      rcases hinv loc hne with ⟨B, hmem, _⟩ | hrec
      · simp at hmem
      · exact hrec pd hpd
    | cons x t =>
      simp only [netlistLoop] at h
      cases hpop : dpopitem (x :: t) with
      | none => exact absurd (dpopitem_none _ hpop) (by simp)
      | some pr =>
        obtain ⟨⟨loc0, locwires⟩, wi'⟩ := pr
        simp only [hpop] at h
        cases hpn : processNet di models (entities wi' + locwires.length) wi'
            locwires none [] with
        | error e => simp only [hpn] at h; exact Except.noConfusion h
        | ok res =>
          obtain ⟨wi'', nm, nd⟩ := res
          simp only [hpn] at h
          have hsplit := dpopitem_eq (x :: t) (loc0, locwires) wi' hpop
          refine ih _ _ _ nlfin h (ndMerge_keys_nodup nd nl _ hnd) ?_ loc hne pd hpd
          intro loc1 hne1
          rcases hinv loc1 hne1 with ⟨B, hmem, hstub⟩ | hrec
          · rw [hsplit] at hmem
            rcases List.mem_append.mp hmem with hmem | hmem
            · rcases processNet_keep di models _ _ _ _ _ _ _ _ hpn loc1 B hmem hstub
                with hk | hr
              · left; exact ⟨B, hk, hstub⟩
              · right
                intro pd1 hpd1
                exact nlRecorded_merge_record nl _ nd _ _ (hr pd1 hpd1)
            · simp only [List.mem_singleton] at hmem
              have hloc : loc1 = loc0 := (Prod.mk.inj hmem).1
              have hB : B = locwires := (Prod.mk.inj hmem).2
              subst hloc
              subst hB
              right
              intro pd1 hpd1
              refine nlRecorded_merge_record nl _ nd _ _ ?_
              refine processNet_records di models _ _ _ _ _ _ _ _ hpn (stub loc1)
                hstub rfl loc1 ?_ pd1 hpd1
              rw [wireLocs_stub]
              exact List.mem_singleton.mpr rfl
          · right
            intro pd1 hpd1
            exact nlRecorded_merge_mono nl _ nd hnd _ _ (hrec pd1 hpd1)

theorem netlistLoop_pairIff (di : DI) (models : Models) (k1 k2 : String)
    (p1 p2 : Option String) (loc : Coord)
    (H1 : ∀ lp d, (p1, d) ∈ diAt di lp → d.id = k1 → lp = loc)
    (H2 : ∀ lp d, (p2, d) ∈ diAt di lp → d.id = k2 → lp = loc)
    (Hb1 : ∃ d, (p1, d) ∈ diAt di loc ∧ d.id = k1)
    (Hb2 : ∃ d, (p2, d) ∈ diAt di loc ∧ d.id = k2) :
    ∀ (fuel : ℕ) (wi : WI) (netnum : ℕ) (nl nlfin : NL),
    netlistLoop di models fuel wi netnum nl = .ok nlfin →
    (nl.map (fun e => e.1)).Nodup →
    (∀ net devs, dlookup nl net = some devs → pairIff k1 p1 k2 p2 devs) →
    (nlfin.map (fun e => e.1)).Nodup ∧
    (∀ net devs, dlookup nlfin net = some devs → pairIff k1 p1 k2 p2 devs) := by
  intro fuel
  induction fuel with
  | zero =>
    intro wi netnum nl nlfin h hnd hpi
    cases wi with
    | nil => cases Except.ok.inj h; exact ⟨hnd, hpi⟩
    | cons x t => exact Except.noConfusion h
  | succ fuel ih =>
    intro wi netnum nl nlfin h hnd hpi
    cases wi with
    | nil => cases Except.ok.inj h; exact ⟨hnd, hpi⟩
    | cons x t =>
      simp only [netlistLoop] at h
      cases hpop : dpopitem (x :: t) with
      | none => exact absurd (dpopitem_none _ hpop) (by simp)
      | some pr =>
        obtain ⟨⟨loc0, locwires⟩, wi'⟩ := pr
        simp only [hpop] at h
        cases hpn : processNet di models (entities wi' + locwires.length) wi'
            locwires none [] with
        | error e => simp only [hpn] at h; exact Except.noConfusion h
        | ok res =>
          obtain ⟨wi'', nm, nd⟩ := res
          simp only [hpn] at h
          have hndpi : pairIff k1 p1 k2 p2 nd := by
            refine processNet_pairIff di models k1 k2 p1 p2 loc H1 H2 Hb1 Hb2
              _ _ _ _ _ _ _ _ hpn ?_
            rw [pairIff]
            simp [recorded]
          refine ih _ _ _ nlfin h (ndMerge_keys_nodup nd nl _ hnd)
            (pairIff_merge nl _ nd k1 k2 p1 p2 hpi hndpi)

theorem dlookup_insertD {α β : Type} [DecidableEq α] (l : List (α × β))
    (k0 : α) (v0 : β) (k : α) :
    dlookup (insertD l k0 v0) k = if k = k0 then some v0 else dlookup l k := by
  induction l with
  | nil =>
    by_cases hk : k = k0
    · subst hk; simp [insertD, dlookup]
    · simp [insertD, dlookup, hk, Ne.symm hk]
  | cons e t ih =>
    obtain ⟨k1, v1⟩ := e
    rw [insertD]
    by_cases h10 : k1 = k0
    · subst h10
      by_cases hk : k1 = k
      · subst hk; simp [dlookup]
      · simp [dlookup, hk, Ne.symm hk]
    · rw [if_neg h10]
      by_cases hk : k1 = k
      · subst hk
        simp [dlookup, fun hc : k1 = k0 => h10 hc]
      · simp [dlookup, hk, ih]

theorem dlookup_inlSet (inl : INL) (dev : String) (port : Option String)
    (net : String) (k : String) :
    dlookup (inlSet inl dev port net) k =
      if k = dev then some (insertD ((dlookup inl dev).getD []) port net)
      else dlookup inl k := by
  induction inl with
  | nil =>
    by_cases hk : k = dev
    · subst hk; simp [inlSet, dlookup, insertD]
    · simp [inlSet, dlookup, hk, Ne.symm hk]
  | cons e t ih =>
    obtain ⟨d0, pm⟩ := e
    rw [inlSet]
    by_cases hd : d0 = dev
    · subst hd
      rw [if_pos rfl]
      by_cases hk : d0 = k
      · subst hk; simp [dlookup]
      · simp [dlookup, hk, Ne.symm hk]
    · rw [if_neg hd]
      by_cases hk : d0 = k
      · subst hk
        simp [dlookup, fun hc : d0 = dev => hd hc]
      · simp [dlookup, hk, hd, ih]

theorem ilookup_inlSet (inl : INL) (dev : String) (port : Option String)
    (net : String) (k : String) (p : Option String) :
    ilookup (inlSet inl dev port net) k p =
      if k = dev ∧ p = port then some net else ilookup inl k p := by
  rw [ilookup, dlookup_inlSet]
  by_cases hk : k = dev
  · subst hk
    rw [if_pos rfl]
    show dlookup (insertD ((dlookup inl k).getD []) port net) p = _
    rw [dlookup_insertD]
    by_cases hp : p = port
    · rw [if_pos hp, if_pos ⟨rfl, hp⟩]
    · rw [if_neg hp, if_neg (fun hc => hp hc.2), ilookup]
      cases hdl : dlookup inl k with
      | none => simp [dlookup]
      | some pm => simp
  · rw [if_neg hk, if_neg (fun hc => hk hc.1), ilookup]

theorem ilookup_portFold (n k : String) (ps : List (Option String)) :
    ∀ (inl : INL) (k' : String) (p' : Option String),
    ilookup (ps.foldl (fun inl p => inlSet inl k p n) inl) k' p' =
      if k' = k ∧ p' ∈ ps then some n else ilookup inl k' p' := by
  induction ps with
  | nil => intro inl k' p'; simp
  | cons p0 rest ih =>
    intro inl k' p'
    rw [List.foldl_cons, ih, ilookup_inlSet]
    by_cases hk : k' = k
    · subst hk
      by_cases hr : p' ∈ rest
      · rw [if_pos ⟨rfl, hr⟩, if_pos ⟨rfl, List.mem_cons_of_mem _ hr⟩]
      · rw [if_neg (fun hc => hr hc.2)]
        by_cases hp : p' = p0
        · rw [if_pos ⟨rfl, hp⟩, if_pos ⟨rfl, List.mem_cons.mpr (Or.inl hp)⟩]
        · rw [if_neg (fun hc => hp hc.2),
              if_neg (fun hc => (List.mem_cons.mp hc.2).elim hp hr)]
    · rw [if_neg (fun hc => hk hc.1), if_neg (fun hc => hk hc.1),
          if_neg (fun hc => hk hc.1)]

theorem ilookup_devFold (n : String) (devs : NetDevs) :
    ∀ (inl : INL) (k : String) (p : Option String),
    ilookup (devs.foldl (fun inl devpts =>
        devpts.2.foldl (fun inl p => inlSet inl devpts.1 p n) inl) inl) k p =
      if recorded devs k p then some n else ilookup inl k p := by
  induction devs with
  | nil =>
    intro inl k p
    rw [List.foldl_nil, if_neg]
    rintro ⟨ps, h, _⟩
    exact absurd h (List.not_mem_nil _)
  | cons dp rest ih =>
    intro inl k p
    obtain ⟨k0, ps0⟩ := dp
    rw [List.foldl_cons, ih, ilookup_portFold]
    by_cases hr : recorded rest k p
    · rw [if_pos hr, if_pos ((recorded_cons k0 ps0 rest k p).mpr (Or.inr hr))]
    · rw [if_neg hr]
      by_cases hh : k = k0 ∧ p ∈ ps0
      · rw [if_pos hh, if_pos ((recorded_cons k0 ps0 rest k p).mpr (Or.inl hh))]
      · rw [if_neg hh, if_neg
          (fun hc => ((recorded_cons k0 ps0 rest k p).mp hc).elim hh hr)]

theorem ilookup_invertEntry (inl : INL) (e : String × NetDevs) (k : String)
    (p : Option String) :
    ilookup (invertEntry inl e) k p =
      if recorded e.2 k p then some e.1 else ilookup inl k p := by
  rw [invertEntry]
  exact ilookup_devFold e.1 e.2 inl k p

theorem invertFold_spec (k1 k2 : String) (p1 p2 : Option String) :
    ∀ (nl : NL), (∀ e ∈ nl, pairIff k1 p1 k2 p2 e.2) →
    ∀ inl : INL,
    ((∃ e ∈ nl, recorded e.2 k1 p1) →
      ∃ n, ilookup (nl.foldl invertEntry inl) k1 p1 = some n ∧
           ilookup (nl.foldl invertEntry inl) k2 p2 = some n) ∧
    ((¬ ∃ e ∈ nl, recorded e.2 k1 p1) →
      ilookup (nl.foldl invertEntry inl) k1 p1 = ilookup inl k1 p1 ∧
      ilookup (nl.foldl invertEntry inl) k2 p2 = ilookup inl k2 p2) := by
  intro nl
  induction nl with
  | nil =>
    intro _ inl
    refine ⟨fun hex => ?_, fun _ => ⟨rfl, rfl⟩⟩
    obtain ⟨e, he, _⟩ := hex
    exact absurd he (List.not_mem_nil _)
  | cons e rest ih =>
    intro hpi inl
    have hpe : pairIff k1 p1 k2 p2 e.2 := hpi e (List.mem_cons_self e rest)
    have hpr : ∀ e' ∈ rest, pairIff k1 p1 k2 p2 e'.2 :=
      fun e' he' => hpi e' (List.mem_cons_of_mem _ he')
    rw [List.foldl_cons]
    constructor
    · intro hex
      by_cases hrest : ∃ e' ∈ rest, recorded e'.2 k1 p1
      · exact (ih hpr (invertEntry inl e)).1 hrest
      · obtain ⟨e0, he0, hr0⟩ := hex
        rcases List.mem_cons.mp he0 with he0 | he0
        · have hr1 : recorded e.2 k1 p1 := he0 ▸ hr0
          have hr2 : recorded e.2 k2 p2 := hpe.mp hr1
          obtain ⟨hu1, hu2⟩ := (ih hpr (invertEntry inl e)).2 hrest
          refine ⟨e.1, ?_, ?_⟩
          · rw [hu1, ilookup_invertEntry, if_pos hr1]
          · rw [hu2, ilookup_invertEntry, if_pos hr2]
        · exact absurd ⟨e0, he0, hr0⟩ hrest
    · intro hnex
      have hne : ¬ recorded e.2 k1 p1 :=
        fun hc => hnex ⟨e, List.mem_cons_self e rest, hc⟩
      have hne2 : ¬ recorded e.2 k2 p2 := fun hc => hne (hpe.mpr hc)
      have hnrest : ¬ ∃ e' ∈ rest, recorded e'.2 k1 p1 :=
        fun ⟨e', he', hr'⟩ => hnex ⟨e', List.mem_cons_of_mem _ he', hr'⟩
      obtain ⟨hu1, hu2⟩ := (ih hpr (invertEntry inl e)).2 hnrest
      constructor
      · rw [hu1, ilookup_invertEntry, if_neg hne]
      · rw [hu2, ilookup_invertEntry, if_neg hne2]

theorem bucketAdd_atD {α β : Type} [DecidableEq α] (l : List (α × List β))
    (k : α) (x : β) (k' : α) :
    (dlookup (bucketAdd l k x) k').getD [] =
      if k' = k then (dlookup l k').getD [] ++ [x]
      else (dlookup l k').getD [] := by
  induction l with
  | nil =>
    by_cases hk : k' = k
    · subst hk; simp [bucketAdd, dlookup]
    · simp [bucketAdd, dlookup, hk, Ne.symm hk]
  | cons e t ih =>
    obtain ⟨k0, v0⟩ := e
    rw [bucketAdd]
    by_cases h0 : k0 = k
    · subst h0
      by_cases hk : k0 = k'
      · subst hk; simp [dlookup]
      · simp [dlookup, hk, Ne.symm hk]
    · rw [if_neg h0]
      by_cases hk : k0 = k'
      · subst hk
        simp [dlookup, fun hc : k0 = k => h0 hc]
      · simp [dlookup, hk, ih]

theorem pi_fold_stub (d : Doc) (ports : List (Coord × Option String)) :
    ∀ s : DI × WI,
    (∀ loc, diAt s.1 loc ≠ [] → stub loc ∈ wiAt s.2 loc) →
    (∀ loc, diAt (ports.foldl (fun (s : DI × WI) lp =>
        if d.type = "wire" ∨ d.type = "port" then
          (s.1, bucketAdd s.2 lp.1 d)
        else
          (bucketAdd s.1 lp.1 (lp.2, d), bucketAdd s.2 lp.1 (stub lp.1))) s).1 loc ≠ [] →
      stub loc ∈ wiAt ((ports.foldl (fun (s : DI × WI) lp =>
        if d.type = "wire" ∨ d.type = "port" then
          (s.1, bucketAdd s.2 lp.1 d)
        else
          (bucketAdd s.1 lp.1 (lp.2, d), bucketAdd s.2 lp.1 (stub lp.1))) s).2) loc) := by
  induction ports with
  | nil => intro s h; exact h
  | cons lp rest ih =>
    intro s h
    rw [List.foldl_cons]
    refine ih _ ?_
    intro loc hne
    by_cases hw : d.type = "wire" ∨ d.type = "port"
    · rw [if_pos hw] at hne ⊢
      have hs := h loc hne
      rw [wiAt, bucketAdd_atD]
      by_cases hl : loc = lp.1
      · rw [if_pos hl]
        exact List.mem_append_left _ hs
      · rw [if_neg hl]
        exact hs
    · rw [if_neg hw] at hne ⊢
      by_cases hl : loc = lp.1
      · subst hl
        rw [wiAt, bucketAdd_atD, if_pos rfl]
        exact List.mem_append_right _ (List.mem_singleton.mpr rfl)
      · rw [diAt, bucketAdd_atD, if_neg hl] at hne
        have hs := h loc hne
        rw [wiAt, bucketAdd_atD, if_neg hl]
        exact hs

theorem port_index_stub (models : Models) :
    ∀ (docs : List (String × Doc)) (di0 : DI) (wi0 : WI) (di : DI) (wi : WI),
    port_index docs models di0 wi0 = .ok (di, wi) →
    (∀ loc, diAt di0 loc ≠ [] → stub loc ∈ wiAt wi0 loc) →
    (∀ loc, diAt di loc ≠ [] → stub loc ∈ wiAt wi loc) := by
  intro docs
  induction docs with
  | nil =>
    intro di0 wi0 di wi h h0
    rw [port_index] at h
    cases Except.ok.inj h
    exact h0
  | cons kd rest ih =>
    intro di0 wi0 di wi h h0
    obtain ⟨_, d⟩ := kd
    rw [port_index] at h
    cases hgp : getports d models with
    | error e => simp only [hgp] at h; exact Except.noConfusion h
    | ok ports =>
      simp only [hgp] at h
      exact ih _ _ _ _ h (pi_fold_stub d ports (di0, wi0) h0)

/-- C2: for every input to `netlist`, two device terminals placed at the same
grid coordinate `loc` (with no wire required between them) are joined into
the same net — the synthetic zero-length stub inserted at every terminal
location carries the connection — and each such terminal belongs to exactly
one net in the returned mapping (`ilookup` yields exactly one name for it).
The placement hypotheses say terminal `p1` of device `k1` and terminal `p2`
of device `k2` both sit at `loc` in the device index and nowhere else. -/
theorem c2_stub_same_net (docs : List (String × Doc)) (models : Models)
    (di : DI) (wi : WI) (inl : INL) (k1 k2 : String) (p1 p2 : Option String)
    (loc : Coord)
    (hpi : port_index docs models [] [] = .ok (di, wi))
    (hnet : netlist docs models = .ok inl)
    (hb1 : ∃ pd ∈ diAt di loc, pd.1 = p1 ∧ pd.2.id = k1)
    (hb2 : ∃ pd ∈ diAt di loc, pd.1 = p2 ∧ pd.2.id = k2)
    (honly1 : ∀ e ∈ di, ∀ pd ∈ e.2, pd.1 = p1 → pd.2.id = k1 → e.1 = loc)
    (honly2 : ∀ e ∈ di, ∀ pd ∈ e.2, pd.1 = p2 → pd.2.id = k2 → e.1 = loc) :
    ∃ n, ilookup inl k1 p1 = some n ∧ ilookup inl k2 p2 = some n := by
  rw [netlist, hpi] at hnet
  cases hloop : netlistLoop di models wi.length wi 0 [] with
  | error e => simp only [hloop] at hnet; exact Except.noConfusion hnet
  | ok nlfin =>
    simp only [hloop] at hnet
    have hinv : inl = invert nlfin := (Except.ok.inj hnet).symm
    have H1 : ∀ lp d, (p1, d) ∈ diAt di lp → d.id = k1 → lp = loc := by
      intro lp d hmem hid
      rw [diAt] at hmem
      cases hdl : dlookup di lp with
      | none => rw [hdl] at hmem; exact absurd hmem (List.not_mem_nil _)
      | some B =>
        rw [hdl] at hmem
        exact honly1 (lp, B) (dlookup_mem di lp B hdl) (p1, d) hmem rfl hid
    have H2 : ∀ lp d, (p2, d) ∈ diAt di lp → d.id = k2 → lp = loc := by
      intro lp d hmem hid
      rw [diAt] at hmem
      cases hdl : dlookup di lp with
      | none => rw [hdl] at hmem; exact absurd hmem (List.not_mem_nil _)
      | some B =>
        rw [hdl] at hmem
        exact honly2 (lp, B) (dlookup_mem di lp B hdl) (p2, d) hmem rfl hid
    obtain ⟨pd1, hm1, hp1, hid1⟩ := hb1
    obtain ⟨pd2, hm2, hp2, hid2⟩ := hb2
    have Hb1 : ∃ d, (p1, d) ∈ diAt di loc ∧ d.id = k1 :=
      ⟨pd1.2, by rw [← hp1]; exact Prod.mk.eta ▸ hm1, hid1⟩
    have Hb2 : ∃ d, (p2, d) ∈ diAt di loc ∧ d.id = k2 :=
      ⟨pd2.2, by rw [← hp2]; exact Prod.mk.eta ▸ hm2, hid2⟩
    obtain ⟨hnodup, pairProp⟩ :=
      netlistLoop_pairIff di models k1 k2 p1 p2 loc H1 H2 Hb1 Hb2
        wi.length wi 0 [] nlfin hloop (by simp)
        (fun net devs h => by simp [dlookup] at h)
    have hstub : ∀ loc', diAt di loc' ≠ [] → stub loc' ∈ wiAt wi loc' :=
      port_index_stub models docs [] [] di wi hpi
        (fun loc' hne => absurd rfl hne)
    have hinv0 : ∀ loc', diAt di loc' ≠ [] →
        ((∃ B, (loc', B) ∈ wi ∧ stub loc' ∈ B) ∨
         (∀ pd ∈ diAt di loc', nlRecorded ([] : NL) pd.2.id pd.1)) := by
      intro loc' hne
      left
      have hs := hstub loc' hne
      rw [wiAt] at hs
      cases hdl : dlookup wi loc' with
      | none => rw [hdl] at hs; exact absurd hs (List.not_mem_nil _)
      | some B =>
        rw [hdl] at hs
        exact ⟨B, dlookup_mem wi loc' B hdl, hs⟩
    have hcomp := netlistLoop_complete di models wi.length wi 0 [] nlfin
      hloop (by simp) hinv0
    have hneloc : diAt di loc ≠ [] := by
      intro hc
      rw [hc] at hm1
      exact absurd hm1 (List.not_mem_nil _)
    have hr1 : nlRecorded nlfin k1 p1 := by
      have h := hcomp loc hneloc pd1 hm1
      rw [hp1, hid1] at h
      exact h
    have pairAll : ∀ e ∈ nlfin, pairIff k1 p1 k2 p2 e.2 :=
      fun e he => pairProp e.1 e.2
        (mem_dlookup_of_nodup nlfin hnodup e.1 e.2 (Prod.mk.eta ▸ he))
    subst hinv
    rw [invert]
    obtain ⟨e, he, hr⟩ := hr1
    exact (invertFold_spec k1 k2 p1 p2 nlfin pairAll []).1 ⟨e, he, hr⟩

theorem c2_stub_same_net_witness :
    ∃ n, ilookup c2inl "top:R1" (some "P") = some n ∧
         ilookup c2inl "top:R2" (some "N") = some n :=
  c2_stub_same_net c2docs [] c2di c2wi c2inl "top:R1" "top:R2"
    (some "P") (some "N") (1, 0)
    (by rfl) (by rfl) (by decide) (by decide) (by decide) (by decide)

theorem processNetTr_step_wire (di : DI) (models : Models) (fuel : ℕ) (wi : WI)
    (d : Doc) (rest : List Doc) (nm : Option String) (nd : NetDevs)
    (h : d.type = "wire") :
    processNetTr di models (fuel + 1) wi (d :: rest) nm nd =
      match processNetTr di models fuel
          ((wireLocs d).foldl (floodStep di) (wi, rest, nd)).1
          ((wireLocs d).foldl (floodStep di) (wi, rest, nd)).2.1
          (if nm = none ∧ d.name ≠ none then d.name else nm)
          ((wireLocs d).foldl (floodStep di) (wi, rest, nd)).2.2 with
      | .error e => .error e
      | .ok (w, n, nd2, tr) => .ok (w, n, nd2, d :: tr) := by
  rw [processNetTr, if_pos h, getports_wire d models h]
  rfl

theorem processNetTr_step_port (di : DI) (models : Models) (fuel : ℕ) (wi : WI)
    (d : Doc) (rest : List Doc) (nm : Option String) (nd : NetDevs)
    (h1 : d.type ≠ "wire") (h2 : d.type = "port") :
    processNetTr di models (fuel + 1) wi (d :: rest) nm nd =
      match processNetTr di models fuel wi rest d.name nd with
      | .error e => .error e
      | .ok (w, n, nd2, tr) => .ok (w, n, nd2, d :: tr) := by
  rw [processNetTr, if_neg h1, if_pos h2]

theorem processNetTr_spec (di : DI) (models : Models) :
    ∀ (fuel : ℕ) (wi : WI) (q : List Doc) (nn : Option String) (nd : NetDevs)
      (wi' : WI) (nm : Option String) (nd' : NetDevs),
    processNet di models fuel wi q nn nd = .ok (wi', nm, nd') →
    ∃ tr, processNetTr di models fuel wi q nn nd = .ok (wi', nm, nd', tr) ∧
      nm = tr.foldl captureStep nn ∧
      ∀ d ∈ tr, d.type = "wire" ∨ d.type = "port" := by
  intro fuel
  induction fuel with
  | zero =>
    intro wi q nn nd wi' nm nd' h
    cases q with
    | nil =>
      obtain ⟨h1, h23⟩ := Prod.mk.inj (Except.ok.inj h)
      obtain ⟨h2, h3⟩ := Prod.mk.inj h23
      subst h1; subst h2; subst h3
      exact ⟨[], rfl, rfl, by simp⟩
    | cons d rest => exact Except.noConfusion h
  | succ fuel ih =>
    intro wi q nn nd wi' nm nd' h
    cases q with
    | nil =>
      obtain ⟨h1, h23⟩ := Prod.mk.inj (Except.ok.inj h)
      obtain ⟨h2, h3⟩ := Prod.mk.inj h23
      subst h1; subst h2; subst h3
      exact ⟨[], rfl, rfl, by simp⟩
    | cons d rest =>
      by_cases hw : d.type = "wire"
      · rw [processNet_step_wire di models fuel wi d rest nn nd hw] at h
        obtain ⟨tr, htr, hfold, hWP⟩ := ih _ _ _ _ _ _ _ h
        refine ⟨d :: tr, ?_, ?_, ?_⟩
        · rw [processNetTr_step_wire di models fuel wi d rest nn nd hw, htr]
        · rw [List.foldl_cons]
          have hc : captureStep nn d =
              if nn = none ∧ d.name ≠ none then d.name else nn := by
            rw [captureStep, if_pos hw]
          rw [hc]
          exact hfold
        · intro e he
          rcases List.mem_cons.mp he with he | he
          · subst he; left; exact hw
          · exact hWP e he
      · by_cases hp : d.type = "port"
        · rw [processNet_step_port di models fuel wi d rest nn nd hw hp] at h
          obtain ⟨tr, htr, hfold, hWP⟩ := ih _ _ _ _ _ _ _ h
          refine ⟨d :: tr, ?_, ?_, ?_⟩
          · rw [processNetTr_step_port di models fuel wi d rest nn nd hw hp, htr]
          · rw [List.foldl_cons]
            have hc : captureStep nn d = d.name := by
              rw [captureStep, if_neg hw]
            rw [hc]
            exact hfold
          · intro e he
            rcases List.mem_cons.mp he with he | he
            · subst he; right; exact hp
            · exact hWP e he
        · rw [processNet_step_bad di models fuel wi d rest nn nd hw hp] at h
          exact Except.noConfusion h

theorem captureFold_wires (tr : List Doc) (n : String)
    (hnp : ∀ e ∈ tr, e.type ≠ "port")
    (hwp : ∀ e ∈ tr, e.type = "wire" ∨ e.type = "port") :
    tr.foldl captureStep (some n) = some n := by
  induction tr with
  | nil => rfl
  | cons e t ih =>
    rw [List.foldl_cons]
    have hw : e.type = "wire" :=
      (hwp e (List.mem_cons_self e t)).resolve_right (hnp e (List.mem_cons_self e t))
    have hc : captureStep (some n) e = some n := by
      rw [captureStep, if_pos hw, if_neg (fun hc => Option.noConfusion hc.1)]
    rw [hc]
    exact ih (fun e' he' => hnp e' (List.mem_cons_of_mem _ he'))
      (fun e' he' => hwp e' (List.mem_cons_of_mem _ he'))

theorem captureFold_last_port (tr1 : List Doc) (d : Doc) (tr2 : List Doc)
    (nn : Option String) (n : String)
    (hd : d.type = "port") (hdn : d.name = some n)
    (hnp : ∀ e ∈ tr2, e.type ≠ "port")
    (hwp : ∀ e ∈ tr2, e.type = "wire" ∨ e.type = "port") :
    (tr1 ++ d :: tr2).foldl captureStep nn = some n := by
  rw [List.foldl_append, List.foldl_cons]
  have h1 : captureStep (tr1.foldl captureStep nn) d = some n := by
    rw [captureStep, if_neg (fun hc => by rw [hd] at hc; exact absurd hc (by decide))]
    exact hdn
  rw [h1]
  exact captureFold_wires tr2 n hnp hwp

/-- C3 (amended): in every terminating flood fill, the candidate net name
evolves by one fixed per-entity rule over the entities popped in traversal
order (`captureStep`, the rule of netlist.py lines 233-242): a wire's name
is captured only when no name has been captured yet, while a port's name
overwrites the candidate unconditionally.  Consequently the name is the
fold of that rule over the traversal trace, every traced entity is a wire
or a port, and whenever a named port is popped with no port after it, that
last port's name is the net's name - an earlier wire name never survives a
later port. -/
theorem c3_capture_rule (di : DI) (models : Models) (fuel : ℕ) (wi : WI)
    (q : List Doc) (nn : Option String) (nd : NetDevs) (wi' : WI)
    (nm : Option String) (nd' : NetDevs)
    (h : processNet di models fuel wi q nn nd = .ok (wi', nm, nd')) :
    ∃ tr, processNetTr di models fuel wi q nn nd = .ok (wi', nm, nd', tr) ∧
      nm = tr.foldl captureStep nn ∧
      (∀ d ∈ tr, d.type = "wire" ∨ d.type = "port") ∧
      (∀ tr1 d tr2 n, tr = tr1 ++ d :: tr2 → d.type = "port" → d.name = some n →
        (∀ e ∈ tr2, e.type ≠ "port") → nm = some n) := by
  obtain ⟨tr, htr, hfold, hWP⟩ :=
    processNetTr_spec di models fuel wi q nn nd wi' nm nd' h
  refine ⟨tr, htr, hfold, hWP, ?_⟩
  intro tr1 d tr2 n heq hdp hdn hnp
  rw [hfold, heq]
  refine captureFold_last_port tr1 d tr2 nn n hdp hdn hnp ?_
  intro e he
  refine hWP e ?_
  rw [heq]
  exact List.mem_append_right _ (List.mem_cons_of_mem _ he)

/-- Witness for C3's amended theorem: a queue holding the named wire `c3wire`
and then the named port `c3port`; the traversal trace is exactly those two
entities and the port's name "VIN" wins over the wire's earlier "foo". -/
theorem c3_capture_rule_witness :
    ∃ tr, processNetTr [] [] 2 [] [c3wire, c3port] none [] =
        .ok ([], some "VIN", [], tr) ∧
      (some "VIN" : Option String) = tr.foldl captureStep none ∧
      (∀ d ∈ tr, d.type = "wire" ∨ d.type = "port") ∧
      (∀ tr1 d tr2 n, tr = tr1 ++ d :: tr2 → d.type = "port" → d.name = some n →
        (∀ e ∈ tr2, e.type ≠ "port") → (some "VIN" : Option String) = some n) :=
  c3_capture_rule [] [] 2 [] [c3wire, c3port] none [] [] (some "VIN") [] (by rfl)

theorem invertFold_unique (k : String) (p : Option String) (n : String) :
    ∀ (nl : NL), (nl.map (fun e => e.1)).Nodup →
    ∀ (inl : INL) (devs : NetDevs),
    (n, devs) ∈ nl → recorded devs k p →
    (∀ e ∈ nl, recorded e.2 k p → e.1 = n) →
    ilookup (nl.foldl invertEntry inl) k p = some n := by
  intro nl
  induction nl with
  | nil =>
    intro _ inl devs hmem _ _
    exact absurd hmem (List.not_mem_nil _)
  | cons e rest ih =>
    intro hnd inl devs hmem hrec hkey
    rw [List.map_cons, List.nodup_cons] at hnd
    rw [List.foldl_cons]
    rcases List.mem_cons.mp hmem with hmem | hmem
    · have he1 : e.1 = n := by rw [← hmem]
      have hno : ¬ ∃ e' ∈ rest, recorded e'.2 k p := by
        rintro ⟨e', he', hr'⟩
        have hn' : e'.1 = n := hkey e' (List.mem_cons_of_mem _ he') hr'
        exact hnd.1 (by rw [he1, ← hn']; exact List.mem_map.mpr ⟨e', he', rfl⟩)
      have hB := (invertFold_spec k k p p rest (fun _ _ => Iff.rfl)
        (invertEntry inl e)).2 hno
      rw [hB.1, ilookup_invertEntry]
      have hrecE : recorded e.2 k p := by rw [← hmem]; exact hrec
      rw [if_pos hrecE, he1]
    · exact ih hnd.2 (invertEntry inl e) devs hmem hrec
        (fun e' he' hr' => hkey e' (List.mem_cons_of_mem _ he') hr')

theorem ndMerge_persist (nl : NL) (name : String) (nd : NetDevs)
    (n : String) (devs : NetDevs) (k : String) (p : Option String)
    (hdl : dlookup nl n = some devs) (hrec : recorded devs k p) :
    ∃ devs', dlookup (ndMerge nl name nd) n = some devs' ∧
      recorded devs' k p := by
  by_cases hne : n = name
  · subst hne
    cases hd : nd with
    | nil => exact ⟨devs, hdl, hrec⟩
    | cons kv t =>
      refine ⟨mergeAll devs (kv :: t), ?_, ?_⟩
      · rw [← hd, ndMerge_dlookup_name nd nl n (by rw [hd]; simp), hdl, hd]
        rfl
      · rw [recorded_mergeAll]
        left
        exact hrec
  · exact ⟨devs, by rw [ndMerge_dlookup_ne nd nl name n hne]; exact hdl, hrec⟩

theorem netlistLoop_persist (di : DI) (models : Models) :
    ∀ (fuel : ℕ) (wi : WI) (netnum : ℕ) (nl nlfin : NL),
    netlistLoop di models fuel wi netnum nl = .ok nlfin →
    (nl.map (fun e => e.1)).Nodup →
    (nlfin.map (fun e => e.1)).Nodup ∧
    (∀ n devs k p, dlookup nl n = some devs → recorded devs k p →
      ∃ devs', dlookup nlfin n = some devs' ∧ recorded devs' k p) := by
  intro fuel
  induction fuel with
  | zero =>
    intro wi netnum nl nlfin h hnd
    cases wi with
    | nil =>
      cases Except.ok.inj h
      exact ⟨hnd, fun n devs k p hdl hrec => ⟨devs, hdl, hrec⟩⟩
    | cons x t => exact Except.noConfusion h
  | succ fuel ih =>
    intro wi netnum nl nlfin h hnd
    cases wi with
    | nil =>
      cases Except.ok.inj h
      exact ⟨hnd, fun n devs k p hdl hrec => ⟨devs, hdl, hrec⟩⟩
    | cons x t =>
      simp only [netlistLoop] at h
      cases hpop : dpopitem (x :: t) with
      | none => exact absurd (dpopitem_none _ hpop) (by simp)
      | some pr =>
        obtain ⟨⟨loc0, locwires⟩, wi'⟩ := pr
        simp only [hpop] at h
        cases hpn : processNet di models (entities wi' + locwires.length) wi'
            locwires none [] with
        | error e => simp only [hpn] at h; exact Except.noConfusion h
        | ok res =>
          obtain ⟨wi'', nmQ, nd⟩ := res
          simp only [hpn] at h
          obtain ⟨h1, h2⟩ := ih _ _ _ nlfin h (ndMerge_keys_nodup nd nl _ hnd)
          refine ⟨h1, ?_⟩
          intro n devs k p hdl hrec
          obtain ⟨devs1, hdl1, hrec1⟩ := ndMerge_persist nl _ nd n devs k p hdl hrec
          exact h2 n devs1 k p hdl1 hrec1

/-- C10: in `netlist`'s net accumulator and returned mapping, nets are
identified by name, not by connected component.  In every terminating run
of the outer loop, distinct accumulator entries always carry distinct net
names, so two disconnected components whose flood fills capture the same
name land in the one entry of that name; everything recorded under a name
before the run is still recorded under that same single name at the end;
and the final inversion reports a device terminal recorded under only one
name under exactly that shared name. -/
theorem c10_shared_name_merges (di : DI) (models : Models) (fuel : ℕ)
    (wi : WI) (netnum : ℕ) (nl nlfin : NL)
    (h : netlistLoop di models fuel wi netnum nl = .ok nlfin)
    (hnd : (nl.map (fun e => e.1)).Nodup) :
    (nlfin.map (fun e => e.1)).Nodup ∧
    (∀ n devs k p, dlookup nl n = some devs → recorded devs k p →
      ∃ devs', dlookup nlfin n = some devs' ∧ recorded devs' k p) ∧
    (∀ n devs k p, dlookup nlfin n = some devs → recorded devs k p →
      (∀ e ∈ nlfin, recorded e.2 k p → e.1 = n) →
      ilookup (invert nlfin) k p = some n) := by
  obtain ⟨h1, h2⟩ := netlistLoop_persist di models fuel wi netnum nl nlfin h hnd
  refine ⟨h1, h2, ?_⟩
  intro n devs k p hdl hrec hone
  rw [invert]
  exact invertFold_unique k p n nlfin h1 [] devs
    (dlookup_mem nlfin n devs hdl) hrec hone

/-- Witness for C10 on `c10docs`: the two port+resistor groups occupy
disjoint coordinate sets, both ports are named "VDD", and the run through
`netlistLoop` on the indices of `c10docs` reports both groups' P terminals
under the single name "VDD" in the returned mapping. -/
theorem c10_shared_name_merges_witness :
    (netlist c10docs [] = .ok (invert c10nl) ∧
     port_index c10docs [] [] [] = .ok (c10di, c10wi) ∧
     (∀ c ∈ groupCoords (c10docs.take 2) [], c ∉ groupCoords (c10docs.drop 2) [])) ∧
    ilookup (invert c10nl) "top:R1" (some "P") = some "VDD" ∧
    ilookup (invert c10nl) "top:R2" (some "P") = some "VDD" :=
  ⟨⟨by rfl, by rfl, by decide⟩,
   (c10_shared_name_merges c10di [] c10wi.length c10wi 0 [] c10nl
      (by rfl) (by decide)).2.2
     "VDD" [("top:R2", [some "P"]), ("top:R1", [some "P"])] "top:R1" (some "P")
     (by decide) (by decide) (by decide),
   (c10_shared_name_merges c10di [] c10wi.length c10wi 0 [] c10nl
      (by rfl) (by decide)).2.2
     "VDD" [("top:R2", [some "P"]), ("top:R1", [some "P"])] "top:R2" (some "P")
     (by decide) (by decide) (by decide)⟩
